import Mathlib

/-!
# Verification of the MobileScratchpad task-list helpers

A shallow embedding of the text-processing logic of
`src/web/mobile/MobileScratchpad.tsx`:

* the task counters `countUncheckedTasks` / `countCheckedTasks`, which run a
  whole-text multiline global regex scan (`String.match` with the `g` and `m`
  flags);
* the checkbox toggle handler `handleToggleTask`, which splits the content on
  `'\n'`, rewrites the selected line with `String.replace` against the
  unchecked / checked prefix regexes, and rejoins;
* the save / cancel handlers and the derived `canStartAutoRun` flag.

The regular expressions involved (`^[\s]*-\s*\[\s*\]\s*.+$` and friends) are
flat sequences of anchors, single-character classes and greedy `*` / `+`
quantifiers, so they are embedded as token lists executed by a faithful
backtracking matcher (`matchRun`).  JavaScript semantics that matter here and
are modelled exactly:

* `\s` matches the full JS whitespace set, including `'\n'`, so a greedy
  `\s*` can cross line boundaries even in a multiline scan;
* `.` matches everything except the four line terminators;
* `^` / `$` with the `m` flag match at line boundaries; without `m` they
  anchor at the ends of the string (the toggle regexes are only ever applied
  to single split-off lines, anchored at position 0);
* greedy quantifiers backtrack, preferring the longest consumption;
* a global `match` scan looks for the next match at or after the end of the
  previous one and counts every match found.

The matcher is written with explicit fuel so that it is structurally
recursive and evaluates inside the kernel (`decide` / `rfl`); one fuel unit
is spent per consumed token or character, so `tokens + chars + 1` fuel is
always enough, and fuel-irrelevance is proved below.
-/

namespace Maestro

/-- The four line terminators of JavaScript regular expressions
(`\n`, `\r`, U+2028, U+2029). -/
def isLineTerm (c : Char) : Bool :=
  c == '\n' || c == '\r' || c == ' ' || c == ' '

/-- The JavaScript `\s` character class: space, tab, vertical tab, form feed,
carriage return, line feed, NBSP, BOM, and the Unicode space separators. -/
def jsSpace (c : Char) : Bool :=
  c == ' ' || c == '\t' || c == '\n' || c == '\x0b' || c == '\x0c' ||
  c == '\r' || c == ' ' || c == ' ' ||
  (decide (0x2000 ≤ c.toNat) && decide (c.toNat ≤ 0x200a)) ||
  c == ' ' || c == ' ' || c == ' ' || c == ' ' ||
  c == '　' || c == '﻿'

/-- The JavaScript `.` class (no `s` flag): any character except a line
terminator. -/
def isDot (c : Char) : Bool := !(isLineTerm c)

/-- The literal `x` under the `i` flag: lowercase or uppercase. -/
def isXi (c : Char) : Bool := c == 'x' || c == 'X'

/-- One token of the flat regexes used by the component: a `^` anchor, a `$`
anchor, a single-character class, or a greedy `*` / `+` over a class. -/
inductive RTok where
  | anchorStart : RTok
  | anchorEnd : RTok
  | cls (p : Char → Bool) : RTok
  | star (p : Char → Bool) : RTok
  | plus (p : Char → Bool) : RTok

/-- `$` (multiline) holds at a position iff the remaining input is empty or
starts with a line terminator. -/
def atLineEnd : List Char → Bool
  | [] => true
  | c :: _ => isLineTerm c

/-- Backtracking execution of a flat token regex on the remaining input `s`.
`ls` records whether the current position is at a line start (for `^`).
Returns the line-start flag and the remaining input at the end of the match.
Greedy quantifiers try the longest consumption first, exactly like the JS
engine.  `fuel` only forces structural recursion; every recursive call spends
one unit while removing a token or a character, so `toks.length + s.length`
calls suffice (see `matchRun_fuel_irrel`). -/
def matchRun : Nat → List RTok → Bool → List Char → Option (Bool × List Char)
  | 0, _, _, _ => none
  | _ + 1, [], ls, s => some (ls, s)
  | fuel + 1, RTok.anchorStart :: ts, ls, s =>
      if ls then matchRun fuel ts ls s else none
  | fuel + 1, RTok.anchorEnd :: ts, ls, s =>
      if atLineEnd s then matchRun fuel ts ls s else none
  | _ + 1, RTok.cls _ :: _, _, [] => none
  | fuel + 1, RTok.cls p :: ts, _, c :: rest =>
      if p c then matchRun fuel ts (isLineTerm c) rest else none
  | fuel + 1, RTok.star _ :: ts, ls, [] => matchRun fuel ts ls []
  | fuel + 1, RTok.star p :: ts, ls, c :: rest =>
      if p c then
        match matchRun fuel (RTok.star p :: ts) (isLineTerm c) rest with
        | some v => some v
        | none => matchRun fuel ts ls (c :: rest)
      else matchRun fuel ts ls (c :: rest)
  | _ + 1, RTok.plus _ :: _, _, [] => none
  | fuel + 1, RTok.plus p :: ts, _, c :: rest =>
      if p c then matchRun fuel (RTok.star p :: ts) (isLineTerm c) rest
      else none

/-- Attempt a match of `toks` at the current position (line-start flag `ls`)
of the remaining input `s`, with enough fuel to be exact. -/
def matchToks (toks : List RTok) (ls : Bool) (s : List Char) :
    Option (Bool × List Char) :=
  matchRun (toks.length + s.length + 1) toks ls s

/-- The loop of a global regex scan (JS `String.match` with `/g`): try a
match at each position from left to right; on a match, count it and resume at
its end (one character further if it was empty).  `fuel` again only forces
structural recursion; the scan advances at least one character per unit. -/
def scanRun : Nat → List RTok → Bool → List Char → Nat
  | 0, _, _, _ => 0
  | fuel + 1, toks, ls, s =>
      match matchToks toks ls s with
      | some (ls', r) =>
          if r.length < s.length then 1 + scanRun fuel toks ls' r
          else
            match s with
            | [] => 1
            | c :: rest => 1 + scanRun fuel toks (isLineTerm c) rest
      | none =>
          match s with
          | [] => 0
          | c :: rest => scanRun fuel toks (isLineTerm c) rest

/-- The scan loop from an arbitrary position (line-start flag `ls`), with
enough fuel to be exact. -/
def scanFrom (toks : List RTok) (ls : Bool) (s : List Char) : Nat :=
  scanRun (s.length + 1) toks ls s

/-- Number of matches of a global multiline scan of `toks` over `s`,
starting at position 0 (which is a line start). -/
def scanCount (toks : List RTok) (s : List Char) : Nat :=
  scanRun (s.length + 1) toks true s

/-- `/^[\s]*-\s*\[\s*\]\s*.+$/gm` — the unchecked-task counting regex of
`countUncheckedTasks`. -/
def uncheckedScanPat : List RTok :=
  [RTok.anchorStart, RTok.star jsSpace, RTok.cls (fun c => c == '-'),
   RTok.star jsSpace, RTok.cls (fun c => c == '['), RTok.star jsSpace,
   RTok.cls (fun c => c == ']'), RTok.star jsSpace, RTok.plus isDot,
   RTok.anchorEnd]

/-- `/^[\s]*-\s*\[x\]\s*.+$/gim` — the checked-task counting regex of
`countCheckedTasks`. -/
def checkedScanPat : List RTok :=
  [RTok.anchorStart, RTok.star jsSpace, RTok.cls (fun c => c == '-'),
   RTok.star jsSpace, RTok.cls (fun c => c == '['), RTok.cls isXi,
   RTok.cls (fun c => c == ']'), RTok.star jsSpace, RTok.plus isDot,
   RTok.anchorEnd]

/-- `/^(\s*)-\s*\[\s*\]\s*/` — the unchecked prefix regex of the toggle
handler (no `m` flag; applied to a single line, anchored at position 0). -/
def toggleUncheckedPat : List RTok :=
  [RTok.anchorStart, RTok.star jsSpace, RTok.cls (fun c => c == '-'),
   RTok.star jsSpace, RTok.cls (fun c => c == '['), RTok.star jsSpace,
   RTok.cls (fun c => c == ']'), RTok.star jsSpace]

/-- `/^(\s*)-\s*\[x\]\s*/i` — the checked prefix regex of the toggle
handler. -/
def toggleCheckedPat : List RTok :=
  [RTok.anchorStart, RTok.star jsSpace, RTok.cls (fun c => c == '-'),
   RTok.star jsSpace, RTok.cls (fun c => c == '['), RTok.cls isXi,
   RTok.cls (fun c => c == ']'), RTok.star jsSpace]

/-- The spec's own per-line unchecked pattern `^\s*-\s*\[ \]\s*.+`, with a
literal single space between the brackets (spec §3).  Used to state the
claims exactly as written. -/
def specUncheckedPat : List RTok :=
  [RTok.anchorStart, RTok.star jsSpace, RTok.cls (fun c => c == '-'),
   RTok.star jsSpace, RTok.cls (fun c => c == '['), RTok.cls (fun c => c == ' '),
   RTok.cls (fun c => c == ']'), RTok.star jsSpace, RTok.plus isDot]

/-- The spec's per-line checked pattern `^\s*-\s*\[x\]\s*.+`
(case-insensitive `x`, spec §3). -/
def specCheckedPat : List RTok :=
  [RTok.anchorStart, RTok.star jsSpace, RTok.cls (fun c => c == '-'),
   RTok.star jsSpace, RTok.cls (fun c => c == '['), RTok.cls isXi,
   RTok.cls (fun c => c == ']'), RTok.star jsSpace, RTok.plus isDot]

/-- JS `content.split('\n')`: split on every newline, keeping empty pieces;
the empty string yields one empty piece. -/
def splitNl : List Char → List (List Char)
  | [] => [[]]
  | c :: rest =>
    if c = '\n' then [] :: splitNl rest
    else
      match splitNl rest with
      | [] => [[c]]
      | l :: ls => (c :: l) :: ls

/-- JS `lines.join('\n')`. -/
def joinNl : List (List Char) → List Char
  | [] => []
  | [l] => l
  | l :: ls => l ++ '\n' :: joinNl ls

/-- The body of the toggle handler on one line:
if the line matches `/^(\s*)-\s*\[\s*\]\s*/` it is replaced by
`'$1- [x] '` plus the rest of the line, else if it matches
`/^(\s*)-\s*\[x\]\s*/i` it is replaced by `'$1- [ ] '` plus the rest,
otherwise it is left alone.  The capture group `(\s*)`, being greedy and
followed by the non-whitespace `-`, always captures exactly the maximal
whitespace prefix, i.e. `line.takeWhile jsSpace`. -/
def toggleLine (line : List Char) : List Char :=
  match matchToks toggleUncheckedPat true line with
  | some (_, r) =>
      line.takeWhile jsSpace ++ ('-' :: ' ' :: '[' :: 'x' :: ']' :: ' ' :: []) ++ r
  | none =>
      match matchToks toggleCheckedPat true line with
      | some (_, r) =>
          line.takeWhile jsSpace ++ ('-' :: ' ' :: '[' :: ' ' :: ']' :: ' ' :: []) ++ r
      | none => line

/-- `handleToggleTask` (MobileScratchpad.tsx lines 198–214): split the
content, rewrite the selected line, rejoin.  In JS, an out-of-range or
negative index makes `lines[lineIndex]` the value `undefined`, which
`RegExp.test` coerces to the string `"undefined"`; that string matches
neither prefix regex, so no assignment happens and the rejoined content is
the split of the original — modelled here by leaving the list untouched
(`List.set` is a no-op out of range, and `toggleLine [] = []`). -/
def handleToggleTask (content : String) (lineIndex : Int) : String :=
  let lines := splitNl content.data
  let newLines :=
    if lineIndex < 0 then lines
    else lines.set lineIndex.toNat (toggleLine (lines.getD lineIndex.toNat []))
  String.mk (joinNl newLines)

/-- `countUncheckedTasks` (lines 38–42): 0 on falsy content, else the number
of matches of the global multiline scan of `/^[\s]*-\s*\[\s*\]\s*.+$/gm`. -/
def countUncheckedTasks (content : String) : Nat :=
  if content.data = [] then 0 else scanCount uncheckedScanPat content.data

/-- `countCheckedTasks` (lines 47–51): 0 on falsy content, else the number of
matches of the global multiline scan of `/^[\s]*-\s*\[x\]\s*.+$/gim`. -/
def countCheckedTasks (content : String) : Nat :=
  if content.data = [] then 0 else scanCount checkedScanPat content.data

/-- `countUncheckedTasks` on a possibly-absent argument: JS `!content` is
true both for `undefined` and for the empty string. -/
def countUncheckedTasksOpt : Option String → Nat
  | none => 0
  | some s => countUncheckedTasks s

/-- `countCheckedTasks` on a possibly-absent argument. -/
def countCheckedTasksOpt : Option String → Nat
  | none => 0
  | some s => countCheckedTasks s

/-- A standalone line matches the code's unchecked pattern
`^[\s]*-\s*\[\s*\]\s*.+$` (the per-line reading of the counting regex; the
renderer's line 72 pattern is the same up to capture groups). -/
def lineMatchesUnchecked (l : List Char) : Bool :=
  (matchToks uncheckedScanPat true l).isSome

/-- A standalone line matches the code's checked pattern
`^[\s]*-\s*\[x\]\s*.+$` case-insensitively. -/
def lineMatchesChecked (l : List Char) : Bool :=
  (matchToks checkedScanPat true l).isSome

/-- A standalone line matches the spec's unchecked task-line pattern
`^\s*-\s*\[ \]\s*.+` (spec §3, literal single blank in the brackets). -/
def specLineUnchecked (l : List Char) : Bool :=
  (matchToks specUncheckedPat true l).isSome

/-- A standalone line matches the spec's checked task-line pattern
`^\s*-\s*\[x\]\s*.+` (case-insensitive). -/
def specLineChecked (l : List Char) : Bool :=
  (matchToks specCheckedPat true l).isSome

/-- A line consisting only of non-terminator whitespace (possibly empty). -/
def wsOnlyLine (l : List Char) : Bool :=
  l.all (fun c => jsSpace c && !isLineTerm c)

/-- A line that is nonempty, contains no line terminator, and does not end in
whitespace, `-`, `[` or `]`.  On such lines (and whitespace-only lines) the
whole-text scan of the counters coincides with per-line matching; the
amended counting claims are stated under this hypothesis. -/
def goodLine (l : List Char) : Bool :=
  !l.isEmpty && l.all (fun c => !isLineTerm c) &&
  (match l.getLast? with
   | some c => !jsSpace c && !(c == '-') && !(c == '[') && !(c == ']')
   | none => false)

/-- The line-start flag after consuming the characters of `a`, starting from
flag `ls`: unchanged if nothing was consumed, else determined by the last
consumed character. -/
def flagAfter (ls : Bool) (a : List Char) : Bool :=
  match a.getLast? with
  | none => ls
  | some d => isLineTerm d

/-- Number of tokens of a pattern that always consume a character
(`cls` and `plus`); a successful match consumes at least this many. -/
def clsCount : List RTok → Nat
  | [] => 0
  | RTok.cls _ :: ts => clsCount ts + 1
  | RTok.plus _ :: ts => clsCount ts + 1
  | _ :: ts => clsCount ts

/-- The invariant carried along a good line and its suffixes while relating
the whole-text scan to per-line matching: no line terminators, and the last
character (if any) is neither whitespace nor `-`, `[`, `]`. -/
def GoodSfx (s : List Char) : Prop :=
  (∀ c ∈ s, isLineTerm c = false) ∧
  (∀ c, s.getLast? = some c →
    jsSpace c = false ∧ c ≠ '-' ∧ c ≠ '[' ∧ c ≠ ']')

/-- The new line differs from the old one in at most one character position
(the claim that toggling "changes only the bracket marker"). -/
def ChangesOnlyMarker (oldLine newLine : List Char) : Prop :=
  oldLine.length = newLine.length ∧
  ∃ k, k < oldLine.length ∧ newLine = oldLine.set k (newLine.getD k ' ')

/-- The auto-run state snapshot delivered over the websocket.  Modelled from
the spec: the `AutoRunState` type comes from `../hooks/useWebSocket`, which
is not part of this excerpt; spec §3 gives its fields as
`{isRunning, isStopping, completedTasks, totalTasks}`. -/
structure AutoRunState where
  isRunning : Bool
  isStopping : Bool
  completedTasks : Nat
  totalTasks : Nat

/-- `autoRunState?.isRunning || false` (line 229): `false` when the optional
prop is absent. -/
def isAutoRunning (autoRunState : Option AutoRunState) : Bool :=
  match autoRunState with
  | some st => st.isRunning
  | none => false

/-- `autoRunState?.isStopping || false` (line 230). -/
def isStoppingFlag (autoRunState : Option AutoRunState) : Bool :=
  match autoRunState with
  | some st => st.isStopping
  | none => false

/-- `canStartAutoRun = !isAutoRunning && !isSessionBusy && uncheckedCount > 0`
(line 231); `isSessionBusy` is an optional prop, and `!undefined` is `true`. -/
def canStartAutoRun (autoRunState : Option AutoRunState)
    (isSessionBusy : Option Bool) (localContent : String) : Bool :=
  !(isAutoRunning autoRunState) && !(isSessionBusy.getD false) &&
  decide (0 < countUncheckedTasks localContent)

/-- The component's mode: viewing or editing. -/
inductive Mode where
  | view : Mode
  | edit : Mode
deriving DecidableEq

/-- The component-owned state that save / cancel touch: the mode and the
local draft of the content. -/
structure ScratchpadState where
  mode : Mode
  localContent : String
deriving DecidableEq

/-- `handleCancel` (lines 223–226): reset the draft to the committed
`content` prop, go back to view mode, fire no callback (`none`). -/
def handleCancel (content : String) (_s : ScratchpadState) :
    ScratchpadState × Option String :=
  ({ mode := Mode.view, localContent := content }, none)

/-- `handleSave` (lines 217–220): fire `onContentChange` with the draft
(`some`), go back to view mode. -/
def handleSave (s : ScratchpadState) : ScratchpadState × Option String :=
  ({ mode := Mode.view, localContent := s.localContent }, some s.localContent)

/-! ## Split / join round trips -/

theorem splitNl_ne_nil (s : List Char) : splitNl s ≠ [] := by
  induction s with
  | nil => simp [splitNl]
  | cons c rest ih =>
    simp only [splitNl]
    by_cases h : c = '\n'
    · simp [h]
    · simp only [if_neg h]
      cases hs : splitNl rest with
      | nil => simp
      | cons l ls => simp

theorem joinNl_splitNl (s : List Char) : joinNl (splitNl s) = s := by
  induction s with
  | nil => rfl
  | cons c rest ih =>
    simp only [splitNl]
    by_cases h : c = '\n'
    · subst h
      simp only [if_pos rfl]
      cases hs : splitNl rest with
      | nil => exact absurd hs (splitNl_ne_nil rest)
      | cons l ls =>
        rw [hs] at ih
        simpa [joinNl] using ih
    · simp only [if_neg h]
      cases hs : splitNl rest with
      | nil => exact absurd hs (splitNl_ne_nil rest)
      | cons l ls =>
        rw [hs] at ih
        cases ls with
        | nil => simpa [joinNl] using ih
        | cons t ts => simpa [joinNl] using ih

theorem no_nl_of_mem_splitNl (s : List Char) :
    ∀ l ∈ splitNl s, '\n' ∉ l := by
  induction s with
  | nil =>
    intro l hl
    simp [splitNl] at hl
    simp [hl]
  | cons c rest ih =>
    intro l hl
    simp only [splitNl] at hl
    by_cases h : c = '\n'
    · rw [if_pos h] at hl
      rcases List.mem_cons.mp hl with h1 | h1
      · simp [h1]
      · exact ih l h1
    · rw [if_neg h] at hl
      cases hs : splitNl rest with
      | nil => exact absurd hs (splitNl_ne_nil rest)
      | cons t ts =>
        rw [hs] at hl
        rcases List.mem_cons.mp hl with h1 | h1
        · subst h1
          intro hmem
          rcases List.mem_cons.mp hmem with h2 | h2
          · exact h h2.symm
          · exact ih t (hs ▸ List.mem_cons_self t ts) h2
        · exact ih l (hs ▸ List.mem_cons_of_mem t h1)

theorem splitNl_of_no_nl (l : List Char) (h : '\n' ∉ l) : splitNl l = [l] := by
  induction l with
  | nil => rfl
  | cons c rest ih =>
    simp only [splitNl]
    rw [if_neg (by intro hc; exact h (hc ▸ List.mem_cons_self c rest))]
    rw [ih (fun hm => h (List.mem_cons_of_mem c hm))]

theorem splitNl_append_nl (l x : List Char) (h : '\n' ∉ l) :
    splitNl (l ++ '\n' :: x) = l :: splitNl x := by
  induction l with
  | nil => simp [splitNl]
  | cons c rest ih =>
    simp only [List.cons_append, splitNl, List.append_eq]
    rw [if_neg (by intro hc; exact h (hc ▸ List.mem_cons_self c rest))]
    rw [ih (fun hm => h (List.mem_cons_of_mem c hm))]

theorem splitNl_joinNl : ∀ ls : List (List Char), ls ≠ [] →
    (∀ l ∈ ls, '\n' ∉ l) → splitNl (joinNl ls) = ls := by
  intro ls
  induction ls with
  | nil => intro h; exact absurd rfl h
  | cons l rest ih =>
    intro _ hmem
    cases rest with
    | nil =>
      show splitNl (joinNl [l]) = [l]
      simp only [joinNl]
      exact splitNl_of_no_nl l (hmem l (List.mem_cons_self l []))
    | cons t ts =>
      show splitNl (joinNl (l :: t :: ts)) = l :: t :: ts
      simp only [joinNl]
      rw [splitNl_append_nl l _ (hmem l (List.mem_cons_self l (t :: ts)))]
      rw [ih (by simp) (fun m hm => hmem m (List.mem_cons_of_mem l hm))]

/-! ## Fuel irrelevance and fuel-free step laws for the matcher -/

theorem matchRun_fuel_irrel : ∀ f₁ : Nat, ∀ f₂ toks (ls : Bool) (s : List Char),
    toks.length + s.length < f₁ → toks.length + s.length < f₂ →
    matchRun f₁ toks ls s = matchRun f₂ toks ls s := by
  intro f₁
  induction f₁ with
  | zero => intro f₂ toks ls s h1 _; omega
  | succ f ih =>
    intro f₂ toks ls s h1 h2
    cases f₂ with
    | zero => omega
    | succ g =>
      cases toks with
      | nil => rfl
      | cons t ts =>
        simp only [List.length_cons] at h1 h2
        cases t with
        | anchorStart =>
          simp only [matchRun]
          by_cases hls : ls
          · rw [if_pos hls, if_pos hls]
            exact ih g ts ls s (by omega) (by omega)
          · rw [if_neg hls, if_neg hls]
        | anchorEnd =>
          simp only [matchRun]
          by_cases hle : atLineEnd s
          · rw [if_pos hle, if_pos hle]
            exact ih g ts ls s (by omega) (by omega)
          · rw [if_neg hle, if_neg hle]
        | cls p =>
          cases s with
          | nil => rfl
          | cons c rest =>
            simp only [List.length_cons] at h1 h2
            simp only [matchRun]
            by_cases hp : p c
            · rw [if_pos hp, if_pos hp]
              exact ih g ts (isLineTerm c) rest (by omega) (by omega)
            · rw [if_neg hp, if_neg hp]
        | star p =>
          cases s with
          | nil =>
            simp only [matchRun]
            exact ih g ts ls [] (by simp; omega) (by simp; omega)
          | cons c rest =>
            simp only [List.length_cons] at h1 h2
            simp only [matchRun]
            by_cases hp : p c
            · rw [if_pos hp, if_pos hp]
              rw [ih g (RTok.star p :: ts) (isLineTerm c) rest
                    (by simp; omega) (by simp; omega)]
              rw [ih g ts ls (c :: rest) (by simp; omega) (by simp; omega)]
            · rw [if_neg hp, if_neg hp]
              exact ih g ts ls (c :: rest) (by simp; omega) (by simp; omega)
        | plus p =>
          cases s with
          | nil => rfl
          | cons c rest =>
            simp only [List.length_cons] at h1 h2
            simp only [matchRun]
            by_cases hp : p c
            · rw [if_pos hp, if_pos hp]
              exact ih g (RTok.star p :: ts) (isLineTerm c) rest
                (by simp; omega) (by simp; omega)
            · rw [if_neg hp, if_neg hp]

theorem matchToks_eq_matchRun (toks : List RTok) (ls : Bool) (s : List Char)
    (f : Nat) (hf : toks.length + s.length < f) :
    matchToks toks ls s = matchRun f toks ls s :=
  matchRun_fuel_irrel (toks.length + s.length + 1) f toks ls s (by omega) hf

theorem matchToks_nil (ls : Bool) (s : List Char) :
    matchToks [] ls s = some (ls, s) := rfl

theorem matchToks_anchorStart (ts : List RTok) (ls : Bool) (s : List Char) :
    matchToks (RTok.anchorStart :: ts) ls s =
      if ls then matchToks ts ls s else none := by
  show matchRun (ts.length + 1 + s.length + 1) _ ls s = _
  rw [show ts.length + 1 + s.length + 1 = (ts.length + s.length + 1) + 1 by omega]
  simp only [matchRun]
  rfl

theorem matchToks_anchorEnd (ts : List RTok) (ls : Bool) (s : List Char) :
    matchToks (RTok.anchorEnd :: ts) ls s =
      if atLineEnd s then matchToks ts ls s else none := by
  show matchRun (ts.length + 1 + s.length + 1) _ ls s = _
  rw [show ts.length + 1 + s.length + 1 = (ts.length + s.length + 1) + 1 by omega]
  simp only [matchRun]
  rfl

theorem matchToks_cls_nil (p : Char → Bool) (ts : List RTok) (ls : Bool) :
    matchToks (RTok.cls p :: ts) ls [] = none := rfl

theorem matchToks_cls_cons (p : Char → Bool) (ts : List RTok) (ls : Bool)
    (c : Char) (rest : List Char) :
    matchToks (RTok.cls p :: ts) ls (c :: rest) =
      if p c then matchToks ts (isLineTerm c) rest else none := by
  show matchRun (ts.length + 1 + (rest.length + 1) + 1) _ ls _ = _
  rw [show ts.length + 1 + (rest.length + 1) + 1
        = (ts.length + rest.length + 2) + 1 by omega]
  simp only [matchRun]
  by_cases hp : p c
  · rw [if_pos hp, if_pos hp]
    exact (matchToks_eq_matchRun ts (isLineTerm c) rest _ (by omega)).symm
  · rw [if_neg hp, if_neg hp]

theorem matchToks_star_nil (p : Char → Bool) (ts : List RTok) (ls : Bool) :
    matchToks (RTok.star p :: ts) ls [] = matchToks ts ls [] := by
  show matchRun (ts.length + 1 + 0 + 1) _ ls _ = _
  rw [show ts.length + 1 + 0 + 1 = (ts.length + 0 + 1) + 1 by omega]
  simp only [matchRun]
  rfl

theorem matchToks_star_cons (p : Char → Bool) (ts : List RTok) (ls : Bool)
    (c : Char) (rest : List Char) :
    matchToks (RTok.star p :: ts) ls (c :: rest) =
      if p c then
        match matchToks (RTok.star p :: ts) (isLineTerm c) rest with
        | some v => some v
        | none => matchToks ts ls (c :: rest)
      else matchToks ts ls (c :: rest) := by
  show matchRun (ts.length + 1 + (rest.length + 1) + 1) _ ls _ = _
  rw [show ts.length + 1 + (rest.length + 1) + 1
        = (ts.length + 1 + rest.length + 1) + 1 by omega]
  simp only [matchRun]
  by_cases hp : p c
  · rw [if_pos hp, if_pos hp]
    rw [show matchToks (RTok.star p :: ts) (isLineTerm c) rest
          = matchRun (ts.length + 1 + rest.length + 1) (RTok.star p :: ts)
              (isLineTerm c) rest from rfl]
    rw [matchToks_eq_matchRun ts ls (c :: rest) (ts.length + 1 + rest.length + 1)
          (by simp; omega)]
  · rw [if_neg hp, if_neg hp]
    exact (matchToks_eq_matchRun ts ls (c :: rest) _ (by simp; omega)).symm

theorem matchToks_plus_nil (p : Char → Bool) (ts : List RTok) (ls : Bool) :
    matchToks (RTok.plus p :: ts) ls [] = none := rfl

theorem matchToks_plus_cons (p : Char → Bool) (ts : List RTok) (ls : Bool)
    (c : Char) (rest : List Char) :
    matchToks (RTok.plus p :: ts) ls (c :: rest) =
      if p c then matchToks (RTok.star p :: ts) (isLineTerm c) rest
      else none := by
  show matchRun (ts.length + 1 + (rest.length + 1) + 1) _ ls _ = _
  rw [show ts.length + 1 + (rest.length + 1) + 1
        = (ts.length + 1 + rest.length + 1) + 1 by omega]
  simp only [matchRun]
  rfl

/-! ## Fuel irrelevance and the step law for the scan loop -/

theorem scanRun_fuel_irrel : ∀ f₁ : Nat, ∀ f₂ toks (ls : Bool) (s : List Char),
    s.length < f₁ → s.length < f₂ →
    scanRun f₁ toks ls s = scanRun f₂ toks ls s := by
  intro f₁
  induction f₁ with
  | zero => intro f₂ toks ls s h1 _; omega
  | succ f ih =>
    intro f₂ toks ls s h1 h2
    cases f₂ with
    | zero => omega
    | succ g =>
      simp only [scanRun]
      cases hm : matchToks toks ls s with
      | some v =>
        obtain ⟨ls', r⟩ := v
        dsimp only
        by_cases hr : r.length < s.length
        · rw [if_pos hr, if_pos hr]
          rw [ih g toks ls' r (by omega) (by omega)]
        · rw [if_neg hr, if_neg hr]
          cases s with
          | nil => rfl
          | cons c rest =>
            dsimp only
            simp only [List.length_cons] at h1 h2
            rw [ih g toks (isLineTerm c) rest (by omega) (by omega)]
      | none =>
        dsimp only
        cases s with
        | nil => rfl
        | cons c rest =>
          simp only [List.length_cons] at h1 h2
          exact ih g toks (isLineTerm c) rest (by omega) (by omega)

theorem scanFrom_eq_scanRun (toks : List RTok) (ls : Bool) (s : List Char)
    (f : Nat) (hf : s.length < f) :
    scanFrom toks ls s = scanRun f toks ls s :=
  scanRun_fuel_irrel (s.length + 1) f toks ls s (by omega) hf

theorem scanFrom_step (toks : List RTok) (ls : Bool) (s : List Char) :
    scanFrom toks ls s =
      match matchToks toks ls s with
      | some (ls', r) =>
          if r.length < s.length then 1 + scanFrom toks ls' r
          else
            match s with
            | [] => 1
            | c :: rest => 1 + scanFrom toks (isLineTerm c) rest
      | none =>
          match s with
          | [] => 0
          | c :: rest => scanFrom toks (isLineTerm c) rest := by
  show scanRun (s.length + 1) toks ls s = _
  simp only [scanRun]
  cases hm : matchToks toks ls s with
  | some v =>
    obtain ⟨ls', r⟩ := v
    dsimp only
    by_cases hr : r.length < s.length
    · rw [if_pos hr, if_pos hr]
      rw [scanRun_fuel_irrel s.length (r.length + 1) toks ls' r (by omega) (by omega)]
      rfl
    · rw [if_neg hr, if_neg hr]
      cases s with
      | nil => rfl
      | cons c rest =>
        dsimp only
        rw [scanRun_fuel_irrel (c :: rest).length (rest.length + 1) toks
              (isLineTerm c) rest (by simp) (by omega)]
        rfl
  | none =>
    dsimp only
    cases s with
    | nil => rfl
    | cons c rest =>
      dsimp only
      rw [scanRun_fuel_irrel (c :: rest).length (rest.length + 1) toks
            (isLineTerm c) rest (by simp) (by omega)]
      rfl

theorem scanCount_eq_scanFrom (toks : List RTok) (s : List Char) :
    scanCount toks s = scanFrom toks true s := rfl

/-! ## Generic facts about successful matches -/

theorem matchRun_remainder_suffix :
    ∀ f toks (ls fl : Bool) (s r : List Char),
    matchRun f toks ls s = some (fl, r) → r.IsSuffix s := by
  intro f
  induction f with
  | zero => intro toks ls fl s r h; exact Option.noConfusion h
  | succ f ih =>
    intro toks ls fl s r h
    cases toks with
    | nil =>
      have h2 : some (ls, s) = some (fl, r) := h
      simp only [Option.some.injEq, Prod.mk.injEq] at h2
      rw [← h2.2]
    | cons t ts =>
      cases t with
      | anchorStart =>
        simp only [matchRun] at h
        by_cases hls : ls
        · rw [if_pos hls] at h; exact ih ts ls fl s r h
        · rw [if_neg hls] at h; exact Option.noConfusion h
      | anchorEnd =>
        simp only [matchRun] at h
        by_cases hle : atLineEnd s
        · rw [if_pos hle] at h; exact ih ts ls fl s r h
        · rw [if_neg hle] at h; exact Option.noConfusion h
      | cls p =>
        cases s with
        | nil => exact Option.noConfusion h
        | cons c rest =>
          simp only [matchRun] at h
          by_cases hp : p c
          · rw [if_pos hp] at h
            exact (ih ts _ fl rest r h).trans (List.suffix_cons c rest)
          · rw [if_neg hp] at h; exact Option.noConfusion h
      | star p =>
        cases s with
        | nil =>
          have h2 : matchRun f ts ls [] = some (fl, r) := h
          exact ih ts ls fl [] r h2
        | cons c rest =>
          simp only [matchRun] at h
          by_cases hp : p c
          · rw [if_pos hp] at h
            cases hin : matchRun f (RTok.star p :: ts) (isLineTerm c) rest with
            | some v =>
              rw [hin] at h
              have h2 : some v = some (fl, r) := h
              rw [h2] at hin
              exact (ih _ _ fl rest r hin).trans (List.suffix_cons c rest)
            | none =>
              rw [hin] at h
              have h2 : matchRun f ts ls (c :: rest) = some (fl, r) := h
              exact ih ts ls fl (c :: rest) r h2
          · rw [if_neg hp] at h
            exact ih ts ls fl (c :: rest) r h
      | plus p =>
        cases s with
        | nil => exact Option.noConfusion h
        | cons c rest =>
          simp only [matchRun] at h
          by_cases hp : p c
          · rw [if_pos hp] at h
            exact (ih _ _ fl rest r h).trans (List.suffix_cons c rest)
          · rw [if_neg hp] at h; exact Option.noConfusion h

theorem matchToks_remainder_suffix (toks : List RTok) (ls fl : Bool)
    (s r : List Char) (h : matchToks toks ls s = some (fl, r)) :
    r.IsSuffix s :=
  matchRun_remainder_suffix _ toks ls fl s r h

theorem matchRun_clsCount_le :
    ∀ f toks (ls fl : Bool) (s r : List Char),
    matchRun f toks ls s = some (fl, r) →
    r.length + clsCount toks ≤ s.length := by
  intro f
  induction f with
  | zero => intro toks ls fl s r h; exact Option.noConfusion h
  | succ f ih =>
    intro toks ls fl s r h
    cases toks with
    | nil =>
      have h2 : some (ls, s) = some (fl, r) := h
      simp only [Option.some.injEq, Prod.mk.injEq] at h2
      rw [← h2.2]
      simp [clsCount]
    | cons t ts =>
      cases t with
      | anchorStart =>
        simp only [matchRun] at h
        by_cases hls : ls
        · rw [if_pos hls] at h
          have := ih ts ls fl s r h
          simpa [clsCount] using this
        · rw [if_neg hls] at h; exact Option.noConfusion h
      | anchorEnd =>
        simp only [matchRun] at h
        by_cases hle : atLineEnd s
        · rw [if_pos hle] at h
          have := ih ts ls fl s r h
          simpa [clsCount] using this
        · rw [if_neg hle] at h; exact Option.noConfusion h
      | cls p =>
        cases s with
        | nil => exact Option.noConfusion h
        | cons c rest =>
          simp only [matchRun] at h
          by_cases hp : p c
          · rw [if_pos hp] at h
            have := ih ts _ fl rest r h
            simp only [clsCount, List.length_cons]
            omega
          · rw [if_neg hp] at h; exact Option.noConfusion h
      | star p =>
        cases s with
        | nil =>
          have h2 : matchRun f ts ls [] = some (fl, r) := h
          have := ih ts ls fl [] r h2
          simpa [clsCount] using this
        | cons c rest =>
          simp only [matchRun] at h
          by_cases hp : p c
          · rw [if_pos hp] at h
            cases hin : matchRun f (RTok.star p :: ts) (isLineTerm c) rest with
            | some v =>
              rw [hin] at h
              have h2 : some v = some (fl, r) := h
              rw [h2] at hin
              have := ih _ _ fl rest r hin
              simp only [clsCount] at this ⊢
              simp only [List.length_cons]
              omega
            | none =>
              rw [hin] at h
              have h2 : matchRun f ts ls (c :: rest) = some (fl, r) := h
              have := ih ts ls fl (c :: rest) r h2
              simp only [clsCount] at this ⊢
              omega
          · rw [if_neg hp] at h
            have := ih ts ls fl (c :: rest) r h
            simp only [clsCount] at this ⊢
            omega
      | plus p =>
        cases s with
        | nil => exact Option.noConfusion h
        | cons c rest =>
          simp only [matchRun] at h
          by_cases hp : p c
          · rw [if_pos hp] at h
            have := ih _ _ fl rest r h
            simp only [clsCount, List.length_cons] at this ⊢
            omega
          · rw [if_neg hp] at h; exact Option.noConfusion h

theorem matchToks_clsCount_le (toks : List RTok) (ls fl : Bool)
    (s r : List Char) (h : matchToks toks ls s = some (fl, r)) :
    r.length + clsCount toks ≤ s.length :=
  matchRun_clsCount_le _ toks ls fl s r h

theorem matchRun_final_flag :
    ∀ f toks (ls fl : Bool) (s r : List Char),
    matchRun f toks ls s = some (fl, r) →
    (fl = ls ∧ r = s) ∨ ∃ c pre, s = pre ++ c :: r ∧ fl = isLineTerm c := by
  intro f
  induction f with
  | zero => intro toks ls fl s r h; exact Option.noConfusion h
  | succ f ih =>
    intro toks ls fl s r h
    cases toks with
    | nil =>
      have h2 : some (ls, s) = some (fl, r) := h
      simp only [Option.some.injEq, Prod.mk.injEq] at h2
      exact Or.inl ⟨h2.1.symm, h2.2.symm⟩
    | cons t ts =>
      cases t with
      | anchorStart =>
        simp only [matchRun] at h
        by_cases hls : ls
        · rw [if_pos hls] at h; exact ih ts ls fl s r h
        · rw [if_neg hls] at h; exact Option.noConfusion h
      | anchorEnd =>
        simp only [matchRun] at h
        by_cases hle : atLineEnd s
        · rw [if_pos hle] at h; exact ih ts ls fl s r h
        · rw [if_neg hle] at h; exact Option.noConfusion h
      | cls p =>
        cases s with
        | nil => exact Option.noConfusion h
        | cons c rest =>
          simp only [matchRun] at h
          by_cases hp : p c
          · rw [if_pos hp] at h
            rcases ih ts _ fl rest r h with ⟨hfl, hr⟩ | ⟨c', pre', hpre, hfl⟩
            · exact Or.inr ⟨c, [], by simp [hr], hfl⟩
            · exact Or.inr ⟨c', c :: pre', by simp [hpre], hfl⟩
          · rw [if_neg hp] at h; exact Option.noConfusion h
      | star p =>
        cases s with
        | nil =>
          have h2 : matchRun f ts ls [] = some (fl, r) := h
          exact ih ts ls fl [] r h2
        | cons c rest =>
          simp only [matchRun] at h
          by_cases hp : p c
          · rw [if_pos hp] at h
            cases hin : matchRun f (RTok.star p :: ts) (isLineTerm c) rest with
            | some v =>
              rw [hin] at h
              have h2 : some v = some (fl, r) := h
              rw [h2] at hin
              rcases ih _ _ fl rest r hin with ⟨hfl, hr⟩ | ⟨c', pre', hpre, hfl⟩
              · exact Or.inr ⟨c, [], by simp [hr], hfl⟩
              · exact Or.inr ⟨c', c :: pre', by simp [hpre], hfl⟩
            | none =>
              rw [hin] at h
              have h2 : matchRun f ts ls (c :: rest) = some (fl, r) := h
              exact ih ts ls fl (c :: rest) r h2
          · rw [if_neg hp] at h
            exact ih ts ls fl (c :: rest) r h
      | plus p =>
        cases s with
        | nil => exact Option.noConfusion h
        | cons c rest =>
          simp only [matchRun] at h
          by_cases hp : p c
          · rw [if_pos hp] at h
            rcases ih _ _ fl rest r h with ⟨hfl, hr⟩ | ⟨c', pre', hpre, hfl⟩
            · exact Or.inr ⟨c, [], by simp [hr], hfl⟩
            · exact Or.inr ⟨c', c :: pre', by simp [hpre], hfl⟩
          · rw [if_neg hp] at h; exact Option.noConfusion h

theorem matchToks_final_flag (toks : List RTok) (ls fl : Bool)
    (s r : List Char) (h : matchToks toks ls s = some (fl, r)) :
    (fl = ls ∧ r = s) ∨ ∃ c pre, s = pre ++ c :: r ∧ fl = isLineTerm c :=
  matchRun_final_flag _ toks ls fl s r h

theorem matchRun_getLast_anchorEnd :
    ∀ f toks (ls fl : Bool) (s r : List Char),
    toks.getLast? = some RTok.anchorEnd →
    matchRun f toks ls s = some (fl, r) → atLineEnd r = true := by
  intro f
  induction f with
  | zero => intro toks ls fl s r _ h; exact Option.noConfusion h
  | succ f ih =>
    intro toks ls fl s r hlast h
    cases toks with
    | nil => exact Option.noConfusion hlast
    | cons t ts =>
      cases ts with
      | nil =>
        simp only [List.getLast?_singleton, Option.some.injEq] at hlast
        cases t with
        | anchorEnd =>
          simp only [matchRun] at h
          by_cases hle : atLineEnd s
          · rw [if_pos hle] at h
            cases f with
            | zero => exact Option.noConfusion h
            | succ g =>
              have h2 : some (ls, s) = some (fl, r) := h
              simp only [Option.some.injEq, Prod.mk.injEq] at h2
              rw [← h2.2]; exact hle
          · rw [if_neg hle] at h; exact Option.noConfusion h
        | anchorStart => exact RTok.noConfusion hlast
        | cls p => exact RTok.noConfusion hlast
        | star p =>
          exact RTok.noConfusion hlast
        | plus p => exact RTok.noConfusion hlast
      | cons u us =>
        have hlast' : (u :: us).getLast? = some RTok.anchorEnd := by
          rw [List.getLast?_cons_cons] at hlast; exact hlast
        cases t with
        | anchorStart =>
          simp only [matchRun] at h
          by_cases hls : ls
          · rw [if_pos hls] at h; exact ih _ ls fl s r hlast' h
          · rw [if_neg hls] at h; exact Option.noConfusion h
        | anchorEnd =>
          simp only [matchRun] at h
          by_cases hle : atLineEnd s
          · rw [if_pos hle] at h; exact ih _ ls fl s r hlast' h
          · rw [if_neg hle] at h; exact Option.noConfusion h
        | cls p =>
          cases s with
          | nil => exact Option.noConfusion h
          | cons c rest =>
            simp only [matchRun] at h
            by_cases hp : p c
            · rw [if_pos hp] at h; exact ih _ _ fl rest r hlast' h
            · rw [if_neg hp] at h; exact Option.noConfusion h
        | star p =>
          cases s with
          | nil =>
            have h2 : matchRun f (u :: us) ls [] = some (fl, r) := h
            exact ih _ ls fl [] r hlast' h2
          | cons c rest =>
            simp only [matchRun] at h
            by_cases hp : p c
            · rw [if_pos hp] at h
              cases hin : matchRun f (RTok.star p :: u :: us) (isLineTerm c) rest with
              | some v =>
                rw [hin] at h
                have h2 : some v = some (fl, r) := h
                rw [h2] at hin
                exact ih _ _ fl rest r (by simpa [List.getLast?_cons_cons] using hlast') hin
              | none =>
                rw [hin] at h
                have h2 : matchRun f (u :: us) ls (c :: rest) = some (fl, r) := h
                exact ih _ ls fl (c :: rest) r hlast' h2
            · rw [if_neg hp] at h
              exact ih _ ls fl (c :: rest) r hlast' h
        | plus p =>
          cases s with
          | nil => exact Option.noConfusion h
          | cons c rest =>
            simp only [matchRun] at h
            by_cases hp : p c
            · rw [if_pos hp] at h
              exact ih _ _ fl rest r (by simpa [List.getLast?_cons_cons] using hlast') h
            · rw [if_neg hp] at h; exact Option.noConfusion h

theorem matchToks_getLast_anchorEnd (toks : List RTok) (ls fl : Bool)
    (s r : List Char) (hlast : toks.getLast? = some RTok.anchorEnd)
    (h : matchToks toks ls s = some (fl, r)) : atLineEnd r = true :=
  matchRun_getLast_anchorEnd _ toks ls fl s r hlast h

/-! ## Character-class facts -/

theorem beq_false_of_jsSpace {c d : Char} (hd : jsSpace d = false)
    (h : jsSpace c = true) : (c == d) = false := by
  rcases Bool.eq_false_or_eq_true (c == d) with hb | hb
  · have hcd : c = d := eq_of_beq hb
    rw [hcd] at h
    rw [h] at hd
    exact Bool.noConfusion hd
  · exact hb

theorem GoodSfx_tail {c : Char} {rest : List Char}
    (h : GoodSfx (c :: rest)) : GoodSfx rest := by
  obtain ⟨h1, h2⟩ := h
  constructor
  · intro x hx; exact h1 x (List.mem_cons_of_mem c hx)
  · intro x hx
    cases rest with
    | nil => exact Option.noConfusion hx
    | cons u us =>
      exact h2 x (by rw [List.getLast?_cons_cons]; exact hx)

/-! ## Greedy star composition -/

theorem matchToks_star_skip (p q : Char → Bool) (R : List RTok)
    (hq : ∀ c, p c = true → q c = false) :
    ∀ (a : List Char) (c₀ : Char) (s : List Char) (ls : Bool),
    (∀ c ∈ a, p c = true) → p c₀ = true →
    matchToks (RTok.star p :: RTok.cls q :: R) ls (a ++ c₀ :: s) =
      matchToks (RTok.star p :: RTok.cls q :: R) (isLineTerm c₀) s := by
  intro a
  induction a with
  | nil =>
    intro c₀ s ls _ hc₀
    rw [List.nil_append, matchToks_star_cons, if_pos hc₀]
    cases hx : matchToks (RTok.star p :: RTok.cls q :: R) (isLineTerm c₀) s with
    | some v => rfl
    | none =>
      show matchToks (RTok.cls q :: R) ls (c₀ :: s) = none
      rw [matchToks_cls_cons, hq c₀ hc₀]
      rfl
  | cons c a' ih =>
    intro c₀ s ls hall hc₀
    have hc : p c = true := hall c (List.mem_cons_self c a')
    rw [List.cons_append, matchToks_star_cons, if_pos hc]
    rw [ih c₀ s (isLineTerm c) (fun x hx => hall x (List.mem_cons_of_mem c hx)) hc₀]
    cases hx : matchToks (RTok.star p :: RTok.cls q :: R) (isLineTerm c₀) s with
    | some v => rfl
    | none =>
      show matchToks (RTok.cls q :: R) ls (c :: (a' ++ c₀ :: s)) = none
      rw [matchToks_cls_cons, hq c hc]
      rfl

theorem matchToks_star_allp_none (p q : Char → Bool) (R : List RTok)
    (hq : ∀ c, p c = true → q c = false) :
    ∀ (a : List Char) (ls : Bool), (∀ c ∈ a, p c = true) →
    matchToks (RTok.star p :: RTok.cls q :: R) ls a = none := by
  intro a
  induction a with
  | nil =>
    intro ls _
    rw [matchToks_star_nil, matchToks_cls_nil]
  | cons c a' ih =>
    intro ls hall
    have hc : p c = true := hall c (List.mem_cons_self c a')
    rw [matchToks_star_cons, if_pos hc]
    rw [ih (isLineTerm c) (fun x hx => hall x (List.mem_cons_of_mem c hx))]
    show matchToks (RTok.cls q :: R) ls (c :: a') = none
    rw [matchToks_cls_cons, hq c hc]
    rfl

/-! ## Transport of a match across an appended `'\n' :: r` tail

On a suffix `s` of a good line, matching any suffix of the counting patterns
against `s ++ '\n' :: r` gives exactly the standalone result on `s` with the
tail re-appended to the remainder. -/

theorem transport_anchorEnd (ls : Bool) (s r : List Char)
    (hs : ∀ c ∈ s, isLineTerm c = false) :
    matchToks [RTok.anchorEnd] ls (s ++ '\n' :: r) =
      (matchToks [RTok.anchorEnd] ls s).map (fun v => (v.1, v.2 ++ '\n' :: r)) := by
  cases s with
  | nil =>
    rw [List.nil_append, matchToks_anchorEnd, matchToks_anchorEnd]
    have h1 : atLineEnd ('\n' :: r) = true := by
      show isLineTerm '\n' = true
      decide
    rw [h1]
    have h2 : atLineEnd ([] : List Char) = true := rfl
    rw [h2]
    simp [matchToks_nil]
  | cons c s' =>
    have hc : isLineTerm c = false := hs c (List.mem_cons_self c s')
    rw [List.cons_append, matchToks_anchorEnd, matchToks_anchorEnd]
    have h1 : atLineEnd (c :: (s' ++ '\n' :: r)) = isLineTerm c := rfl
    have h2 : atLineEnd (c :: s') = isLineTerm c := rfl
    rw [h1, h2, hc]
    simp

theorem transport_starDot (r : List Char) :
    ∀ (s : List Char) (ls : Bool), (∀ c ∈ s, isLineTerm c = false) →
    matchToks [RTok.star isDot, RTok.anchorEnd] ls (s ++ '\n' :: r) =
      (matchToks [RTok.star isDot, RTok.anchorEnd] ls s).map
        (fun v => (v.1, v.2 ++ '\n' :: r)) := by
  intro s
  induction s with
  | nil =>
    intro ls _
    rw [List.nil_append, matchToks_star_cons, matchToks_star_nil]
    have hdn : isDot '\n' = false := by decide
    rw [hdn]
    simp only [Bool.false_eq_true, if_false]
    exact transport_anchorEnd ls [] r (by intro c hc; exact absurd hc (List.not_mem_nil c))
  | cons c s' ih =>
    intro ls hs
    have hc : isLineTerm c = false := hs c (List.mem_cons_self c s')
    have hd : isDot c = true := by simp [isDot, hc]
    rw [List.cons_append, matchToks_star_cons, matchToks_star_cons, if_pos hd, if_pos hd]
    rw [ih (isLineTerm c) (fun x hx => hs x (List.mem_cons_of_mem c hx))]
    cases hx : matchToks [RTok.star isDot, RTok.anchorEnd] (isLineTerm c) s' with
    | some v => rfl
    | none =>
      show matchToks [RTok.anchorEnd] ls (c :: (s' ++ '\n' :: r)) =
        (matchToks [RTok.anchorEnd] ls (c :: s')).map (fun v => (v.1, v.2 ++ '\n' :: r))
      exact transport_anchorEnd ls (c :: s') r hs

theorem transport_plusDot (s : List Char) (ls : Bool) (r : List Char)
    (hgood : GoodSfx s) :
    matchToks [RTok.plus isDot, RTok.anchorEnd] ls (s ++ '\n' :: r) =
      (matchToks [RTok.plus isDot, RTok.anchorEnd] ls s).map
        (fun v => (v.1, v.2 ++ '\n' :: r)) := by
  cases s with
  | nil =>
    rw [List.nil_append, matchToks_plus_cons, matchToks_plus_nil]
    have hdn : isDot '\n' = false := by decide
    rw [hdn]
    simp
  | cons c s' =>
    have hc : isLineTerm c = false := hgood.1 c (List.mem_cons_self c s')
    have hd : isDot c = true := by simp [isDot, hc]
    rw [List.cons_append, matchToks_plus_cons, matchToks_plus_cons, if_pos hd, if_pos hd]
    exact transport_starDot r s' (isLineTerm c)
      (fun x hx => hgood.1 x (List.mem_cons_of_mem c hx))

theorem transport_star_ws (M : List RTok)
    (hM : ∀ (s : List Char) (ls : Bool) (r : List Char), GoodSfx s →
      matchToks M ls (s ++ '\n' :: r) =
        (matchToks M ls s).map (fun v => (v.1, v.2 ++ '\n' :: r))) :
    ∀ (s : List Char) (ls : Bool) (r : List Char), s ≠ [] → GoodSfx s →
    matchToks (RTok.star jsSpace :: M) ls (s ++ '\n' :: r) =
      (matchToks (RTok.star jsSpace :: M) ls s).map
        (fun v => (v.1, v.2 ++ '\n' :: r)) := by
  intro s
  induction s with
  | nil => intro ls r hne _; exact absurd rfl hne
  | cons c s' ih =>
    intro ls r _ hgood
    by_cases hc : jsSpace c = true
    · have hs' : s' ≠ [] := by
        intro hnil
        subst hnil
        have := hgood.2 c (by rw [List.getLast?_singleton])
        rw [hc] at this
        exact Bool.noConfusion this.1
      rw [List.cons_append, matchToks_star_cons, matchToks_star_cons,
          if_pos hc, if_pos hc]
      rw [ih (isLineTerm c) r hs' (GoodSfx_tail hgood)]
      cases hx : matchToks (RTok.star jsSpace :: M) (isLineTerm c) s' with
      | some v => rfl
      | none =>
        show matchToks M ls (c :: (s' ++ '\n' :: r)) =
          (matchToks M ls (c :: s')).map (fun v => (v.1, v.2 ++ '\n' :: r))
        exact hM (c :: s') ls r hgood
    · have hcf : jsSpace c = false := Bool.eq_false_iff.mpr hc
      rw [List.cons_append, matchToks_star_cons, matchToks_star_cons,
          hcf]
      simp only [Bool.false_eq_true, if_false]
      exact hM (c :: s') ls r hgood

theorem transport_cls_any (q : Char → Bool) (M : List RTok)
    (hnl : q '\n' = false)
    (hM : ∀ (s : List Char) (ls : Bool) (r : List Char), GoodSfx s →
      matchToks M ls (s ++ '\n' :: r) =
        (matchToks M ls s).map (fun v => (v.1, v.2 ++ '\n' :: r))) :
    ∀ (s : List Char) (ls : Bool) (r : List Char), GoodSfx s →
    matchToks (RTok.cls q :: M) ls (s ++ '\n' :: r) =
      (matchToks (RTok.cls q :: M) ls s).map
        (fun v => (v.1, v.2 ++ '\n' :: r)) := by
  intro s ls r hgood
  cases s with
  | nil =>
    rw [List.nil_append, matchToks_cls_cons, matchToks_cls_nil, hnl]
    simp
  | cons c s' =>
    rw [List.cons_append, matchToks_cls_cons, matchToks_cls_cons]
    by_cases hc : q c = true
    · rw [hc]
      simp only [if_true]
      exact hM s' (isLineTerm c) r (GoodSfx_tail hgood)
    · have hcf : q c = false := Bool.eq_false_iff.mpr hc
      rw [hcf]
      simp

theorem transport_cls_star (q : Char → Bool) (M : List RTok)
    (hnl : q '\n' = false)
    (hqlast : ∀ c, q c = true → jsSpace c = true ∨ c = '-' ∨ c = '[' ∨ c = ']')
    (hM : ∀ (s : List Char) (ls : Bool) (r : List Char), s ≠ [] → GoodSfx s →
      matchToks M ls (s ++ '\n' :: r) =
        (matchToks M ls s).map (fun v => (v.1, v.2 ++ '\n' :: r))) :
    ∀ (s : List Char) (ls : Bool) (r : List Char), GoodSfx s →
    matchToks (RTok.cls q :: M) ls (s ++ '\n' :: r) =
      (matchToks (RTok.cls q :: M) ls s).map
        (fun v => (v.1, v.2 ++ '\n' :: r)) := by
  intro s ls r hgood
  cases s with
  | nil =>
    rw [List.nil_append, matchToks_cls_cons, matchToks_cls_nil, hnl]
    simp
  | cons c s' =>
    rw [List.cons_append, matchToks_cls_cons, matchToks_cls_cons]
    by_cases hc : q c = true
    · rw [hc]
      simp only [if_true]
      have hs' : s' ≠ [] := by
        intro hnil
        subst hnil
        have hlast := hgood.2 c (by rw [List.getLast?_singleton])
        rcases hqlast c hc with hws | hd | hl | hr
        · rw [hws] at hlast; exact Bool.noConfusion hlast.1
        · exact hlast.2.1 hd
        · exact hlast.2.2.1 hl
        · exact hlast.2.2.2 hr
      exact hM s' (isLineTerm c) r hs' (GoodSfx_tail hgood)
    · have hcf : q c = false := Bool.eq_false_iff.mpr hc
      rw [hcf]
      simp

theorem qlast_dash : ∀ c : Char, (c == '-') = true →
    jsSpace c = true ∨ c = '-' ∨ c = '[' ∨ c = ']' :=
  fun _ h => Or.inr (Or.inl (eq_of_beq h))

theorem qlast_lbrack : ∀ c : Char, (c == '[') = true →
    jsSpace c = true ∨ c = '-' ∨ c = '[' ∨ c = ']' :=
  fun _ h => Or.inr (Or.inr (Or.inl (eq_of_beq h)))

theorem qlast_rbrack : ∀ c : Char, (c == ']') = true →
    jsSpace c = true ∨ c = '-' ∨ c = '[' ∨ c = ']' :=
  fun _ h => Or.inr (Or.inr (Or.inr (eq_of_beq h)))

/-- Transport across the appended tail for the whole unchecked counting
pattern (at a line start, on a good line). -/
theorem transport_unchecked (s r : List Char) (hne : s ≠ []) (hgood : GoodSfx s) :
    matchToks uncheckedScanPat true (s ++ '\n' :: r) =
      (matchToks uncheckedScanPat true s).map (fun v => (v.1, v.2 ++ '\n' :: r)) := by
  have hP : uncheckedScanPat = RTok.anchorStart :: RTok.star jsSpace ::
      RTok.cls (fun c => c == '-') :: RTok.star jsSpace ::
      RTok.cls (fun c => c == '[') :: RTok.star jsSpace ::
      RTok.cls (fun c => c == ']') :: RTok.star jsSpace ::
      RTok.plus isDot :: RTok.anchorEnd :: [] := rfl
  rw [hP, matchToks_anchorStart, matchToks_anchorStart, if_pos rfl, if_pos rfl]
  exact transport_star_ws _
    (transport_cls_star _ _ (by decide) qlast_dash
      (transport_star_ws _
        (transport_cls_star _ _ (by decide) qlast_lbrack
          (transport_star_ws _
            (transport_cls_star _ _ (by decide) qlast_rbrack
              (transport_star_ws _ transport_plusDot))))))
    s true r hne hgood

/-- Transport across the appended tail for the whole checked counting
pattern. -/
theorem transport_checked (s r : List Char) (hne : s ≠ []) (hgood : GoodSfx s) :
    matchToks checkedScanPat true (s ++ '\n' :: r) =
      (matchToks checkedScanPat true s).map (fun v => (v.1, v.2 ++ '\n' :: r)) := by
  have hP : checkedScanPat = RTok.anchorStart :: RTok.star jsSpace ::
      RTok.cls (fun c => c == '-') :: RTok.star jsSpace ::
      RTok.cls (fun c => c == '[') :: RTok.cls isXi ::
      RTok.cls (fun c => c == ']') :: RTok.star jsSpace ::
      RTok.plus isDot :: RTok.anchorEnd :: [] := rfl
  rw [hP, matchToks_anchorStart, matchToks_anchorStart, if_pos rfl, if_pos rfl]
  exact transport_star_ws _
    (transport_cls_star _ _ (by decide) qlast_dash
      (transport_star_ws _
        (transport_cls_any _ _ (by decide)
          (transport_cls_any _ _ (by decide)
            (transport_cls_star _ _ (by decide) qlast_rbrack
              (transport_star_ws _ transport_plusDot))))))
    s true r hne hgood

/-- A successful standalone match of an `$`-terminated pattern on a
terminator-free nonempty line consumes the whole line and ends with the
line-start flag `false`. -/
theorem match_rem_nil_flag (P : List RTok)
    (hlastP : P.getLast? = some RTok.anchorEnd) (l : List Char)
    (hne : l ≠ []) (hnl : ∀ c ∈ l, isLineTerm c = false) (fl : Bool)
    (r : List Char) (h : matchToks P true l = some (fl, r)) :
    r = [] ∧ fl = false := by
  have hr : r = [] := by
    have hend := matchToks_getLast_anchorEnd P true fl l r hlastP h
    cases r with
    | nil => rfl
    | cons c r' =>
      have hc : isLineTerm c = true := hend
      have hsub := (matchToks_remainder_suffix P true fl l (c :: r') h).subset
      have : isLineTerm c = false := hnl c (hsub (List.mem_cons_self c r'))
      rw [this] at hc
      exact Bool.noConfusion hc
  subst hr
  refine ⟨rfl, ?_⟩
  rcases matchToks_final_flag P true fl l [] h with ⟨_, hls⟩ | ⟨c, pre, hpre, hfl⟩
  · exact absurd hls.symm hne
  · have hcl : c ∈ l := by
      rw [hpre]
      exact List.mem_append.mpr (Or.inr (List.mem_cons_self c []))
    rw [hfl]
    exact hnl c hcl

/-! ## Walking the scan through lines -/

theorem matchToks_anchored_false (T : List RTok) (s : List Char) :
    matchToks (RTok.anchorStart :: T) false s = none := by
  rw [matchToks_anchorStart]
  rfl

theorem scanFrom_false_through (T : List RTok) :
    ∀ (d s' : List Char), (∀ c ∈ d, isLineTerm c = false) →
    scanFrom (RTok.anchorStart :: T) false (d ++ '\n' :: s') =
      scanFrom (RTok.anchorStart :: T) true s' := by
  intro d
  induction d with
  | nil =>
    intro s' _
    rw [List.nil_append, scanFrom_step, matchToks_anchored_false]
    show scanFrom (RTok.anchorStart :: T) (isLineTerm '\n') s' = _
    have h2 : isLineTerm '\n' = true := by decide
    rw [h2]
  | cons c d' ih =>
    intro s' hd
    rw [List.cons_append, scanFrom_step, matchToks_anchored_false]
    show scanFrom (RTok.anchorStart :: T) (isLineTerm c) (d' ++ '\n' :: s') = _
    rw [hd c (List.mem_cons_self c d')]
    exact ih s' (fun x hx => hd x (List.mem_cons_of_mem c hx))

theorem scanFrom_false_end (T : List RTok) :
    ∀ d : List Char, (∀ c ∈ d, isLineTerm c = false) →
    scanFrom (RTok.anchorStart :: T) false d = 0 := by
  intro d
  induction d with
  | nil =>
    intro _
    rw [scanFrom_step, matchToks_anchored_false]
  | cons c d' ih =>
    intro hd
    rw [scanFrom_step, matchToks_anchored_false]
    show scanFrom (RTok.anchorStart :: T) (isLineTerm c) d' = 0
    rw [hd c (List.mem_cons_self c d')]
    exact ih (fun x hx => hd x (List.mem_cons_of_mem c hx))

theorem scanFrom_nl_step (T : List RTok) (s : List Char) :
    scanFrom (RTok.anchorStart :: T) false ('\n' :: s) =
      scanFrom (RTok.anchorStart :: T) true s := by
  rw [scanFrom_step, matchToks_anchored_false]
  show scanFrom (RTok.anchorStart :: T) (isLineTerm '\n') s = _
  have h2 : isLineTerm '\n' = true := by decide
  rw [h2]

theorem scanFrom_line_cons (T : List RTok) (l s : List Char)
    (hne : l ≠ []) (hnl : ∀ c ∈ l, isLineTerm c = false)
    (htrans : matchToks (RTok.anchorStart :: T) true (l ++ '\n' :: s) =
      (matchToks (RTok.anchorStart :: T) true l).map
        (fun v => (v.1, v.2 ++ '\n' :: s)))
    (hrem : ∀ (fl : Bool) (r : List Char),
      matchToks (RTok.anchorStart :: T) true l = some (fl, r) →
      r = [] ∧ fl = false) :
    scanFrom (RTok.anchorStart :: T) true (l ++ '\n' :: s) =
      (if (matchToks (RTok.anchorStart :: T) true l).isSome then 1 else 0) +
        scanFrom (RTok.anchorStart :: T) true s := by
  cases hm : matchToks (RTok.anchorStart :: T) true l with
  | some v =>
    obtain ⟨fl, r⟩ := v
    obtain ⟨hr, hfl⟩ := hrem fl r hm
    subst hr
    subst hfl
    have hjoined : matchToks (RTok.anchorStart :: T) true (l ++ '\n' :: s) =
        some (false, '\n' :: s) := by
      rw [htrans, hm]
      rfl
    rw [scanFrom_step, hjoined]
    dsimp only
    have hlen : ('\n' :: s).length < (l ++ '\n' :: s).length := by
      have hl0 : 0 < l.length := List.length_pos.mpr hne
      simp only [List.length_cons, List.length_append]
      omega
    rw [if_pos hlen, scanFrom_nl_step]
    simp
  | none =>
    have hjoined : matchToks (RTok.anchorStart :: T) true (l ++ '\n' :: s) =
        none := by
      rw [htrans, hm]
      rfl
    rw [scanFrom_step, hjoined]
    cases l with
    | nil => exact absurd rfl hne
    | cons c l' =>
      rw [List.cons_append]
      dsimp only
      rw [hnl c (List.mem_cons_self c l')]
      rw [scanFrom_false_through T l' s (fun x hx => hnl x (List.mem_cons_of_mem c hx))]
      simp

theorem scanFrom_line_last (T : List RTok) (l : List Char)
    (hne : l ≠ []) (hnl : ∀ c ∈ l, isLineTerm c = false)
    (hrem : ∀ (fl : Bool) (r : List Char),
      matchToks (RTok.anchorStart :: T) true l = some (fl, r) →
      r = [] ∧ fl = false) :
    scanFrom (RTok.anchorStart :: T) true l =
      if (matchToks (RTok.anchorStart :: T) true l).isSome then 1 else 0 := by
  cases hm : matchToks (RTok.anchorStart :: T) true l with
  | some v =>
    obtain ⟨fl, r⟩ := v
    obtain ⟨hr, hfl⟩ := hrem fl r hm
    subst hr
    subst hfl
    rw [scanFrom_step, hm]
    dsimp only
    have hlen : ([] : List Char).length < l.length := by
      have hl0 : 0 < l.length := List.length_pos.mpr hne
      simpa using hl0
    rw [if_pos hlen]
    have hz : scanFrom (RTok.anchorStart :: T) false [] = 0 := by
      rw [scanFrom_step, matchToks_anchored_false]
    rw [hz]
    simp
  | none =>
    rw [scanFrom_step, hm]
    cases l with
    | nil => exact absurd rfl hne
    | cons c l' =>
      dsimp only
      rw [hnl c (List.mem_cons_self c l')]
      rw [scanFrom_false_end T l' (fun x hx => hnl x (List.mem_cons_of_mem c hx))]
      simp

theorem matchToks_ws_line_none (q : Char → Bool) (R : List RTok)
    (hq : ∀ c, jsSpace c = true → q c = false)
    (w : List Char) (hw : ∀ c ∈ w, jsSpace c = true) :
    matchToks (RTok.anchorStart :: RTok.star jsSpace :: RTok.cls q :: R)
      true w = none := by
  rw [matchToks_anchorStart, if_pos rfl]
  exact matchToks_star_allp_none jsSpace q R hq w true hw

theorem matchToks_ws_line_skip (q : Char → Bool) (R : List RTok)
    (hq : ∀ c, jsSpace c = true → q c = false)
    (w s : List Char) (hw : ∀ c ∈ w, jsSpace c = true) :
    matchToks (RTok.anchorStart :: RTok.star jsSpace :: RTok.cls q :: R)
        true (w ++ '\n' :: s) =
      matchToks (RTok.anchorStart :: RTok.star jsSpace :: RTok.cls q :: R)
        true s := by
  rw [matchToks_anchorStart, matchToks_anchorStart, if_pos rfl, if_pos rfl]
  have h1 := matchToks_star_skip jsSpace q R hq w '\n' s true hw (by decide)
  rw [h1]
  have h2 : isLineTerm '\n' = true := by decide
  rw [h2]

theorem scanFrom_ws_cons (q : Char → Bool) (R : List RTok)
    (hq : ∀ c, jsSpace c = true → q c = false)
    (w s : List Char)
    (hw : ∀ c ∈ w, jsSpace c = true ∧ isLineTerm c = false) :
    scanFrom (RTok.anchorStart :: RTok.star jsSpace :: RTok.cls q :: R)
        true (w ++ '\n' :: s) =
      scanFrom (RTok.anchorStart :: RTok.star jsSpace :: RTok.cls q :: R)
        true s := by
  have hskip := matchToks_ws_line_skip q R hq w s (fun c hc => (hw c hc).1)
  cases hm : matchToks (RTok.anchorStart :: RTok.star jsSpace :: RTok.cls q :: R)
      true s with
  | some v =>
    obtain ⟨fl, r⟩ := v
    have hjoined : matchToks
        (RTok.anchorStart :: RTok.star jsSpace :: RTok.cls q :: R) true
        (w ++ '\n' :: s) = some (fl, r) := by rw [hskip, hm]
    rw [scanFrom_step, hjoined]
    dsimp only
    have hsuf := matchToks_remainder_suffix _ true fl s r hm
    have hr1 : r.length ≤ s.length := List.IsSuffix.length_le hsuf
    have hcls := matchToks_clsCount_le _ true fl s r hm
    have hclsP : 1 ≤ clsCount
        (RTok.anchorStart :: RTok.star jsSpace :: RTok.cls q :: R) := by
      simp only [clsCount]
      omega
    have hlen1 : r.length < (w ++ '\n' :: s).length := by
      simp only [List.length_append, List.length_cons]
      omega
    rw [if_pos hlen1]
    have hrhs : scanFrom
        (RTok.anchorStart :: RTok.star jsSpace :: RTok.cls q :: R) true s =
        1 + scanFrom (RTok.anchorStart :: RTok.star jsSpace :: RTok.cls q :: R)
          fl r := by
      rw [scanFrom_step, hm]
      dsimp only
      have hlen2 : r.length < s.length := by omega
      rw [if_pos hlen2]
    rw [hrhs]
  | none =>
    have hjoined : matchToks
        (RTok.anchorStart :: RTok.star jsSpace :: RTok.cls q :: R) true
        (w ++ '\n' :: s) = none := by rw [hskip, hm]
    rw [scanFrom_step, hjoined]
    cases w with
    | nil =>
      rw [List.nil_append]
      dsimp only
      show scanFrom _ (isLineTerm '\n') s = _
      have h2 : isLineTerm '\n' = true := by decide
      rw [h2]
    | cons c w' =>
      rw [List.cons_append]
      dsimp only
      rw [(hw c (List.mem_cons_self c w')).2]
      exact scanFrom_false_through _ w' s
        (fun x hx => (hw x (List.mem_cons_of_mem c hx)).2)

theorem scanFrom_ws_last (q : Char → Bool) (R : List RTok)
    (hq : ∀ c, jsSpace c = true → q c = false)
    (w : List Char)
    (hw : ∀ c ∈ w, jsSpace c = true ∧ isLineTerm c = false) :
    scanFrom (RTok.anchorStart :: RTok.star jsSpace :: RTok.cls q :: R)
      true w = 0 := by
  have hnone := matchToks_ws_line_none q R hq w (fun c hc => (hw c hc).1)
  rw [scanFrom_step, hnone]
  cases w with
  | nil => rfl
  | cons c w' =>
    dsimp only
    rw [(hw c (List.mem_cons_self c w')).2]
    exact scanFrom_false_end _ w' (fun x hx => (hw x (List.mem_cons_of_mem c hx)).2)

/-! ## From Boolean line classes to the invariants -/

theorem wsOnlyLine_spec {l : List Char} (h : wsOnlyLine l = true) :
    ∀ c ∈ l, jsSpace c = true ∧ isLineTerm c = false := by
  intro c hc
  have h2 := List.all_eq_true.mp h c hc
  rw [Bool.and_eq_true] at h2
  exact ⟨h2.1, by simpa using h2.2⟩

theorem goodLine_spec {l : List Char} (h : goodLine l = true) :
    l ≠ [] ∧ (∀ c ∈ l, isLineTerm c = false) ∧ GoodSfx l := by
  unfold goodLine at h
  rw [Bool.and_eq_true, Bool.and_eq_true] at h
  obtain ⟨⟨h1, h2⟩, h3⟩ := h
  have hne : l ≠ [] := by
    intro hl
    subst hl
    simp at h1
  have hnl : ∀ c ∈ l, isLineTerm c = false := by
    intro c hc
    have := List.all_eq_true.mp h2 c hc
    simpa using this
  refine ⟨hne, hnl, hnl, ?_⟩
  intro c hc
  rw [hc] at h3
  have h4 : (!jsSpace c && !(c == '-') && !(c == '[') && !(c == ']')) = true := h3
  rw [Bool.and_eq_true, Bool.and_eq_true, Bool.and_eq_true] at h4
  obtain ⟨⟨⟨hs, hd⟩, hl⟩, hr⟩ := h4
  refine ⟨by simpa using hs, ?_, ?_, ?_⟩
  · intro he; subst he; simp at hd
  · intro he; subst he; simp at hl
  · intro he; subst he; simp at hr

/-! ## The scan over joined good lines counts matching lines -/

theorem scanFrom_joinNl (q : Char → Bool) (R : List RTok)
    (hq : ∀ c, jsSpace c = true → q c = false)
    (htrans : ∀ (l s : List Char), l ≠ [] → GoodSfx l →
      matchToks (RTok.anchorStart :: RTok.star jsSpace :: RTok.cls q :: R)
          true (l ++ '\n' :: s) =
        (matchToks (RTok.anchorStart :: RTok.star jsSpace :: RTok.cls q :: R)
            true l).map (fun v => (v.1, v.2 ++ '\n' :: s)))
    (hrem : ∀ (l : List Char) (fl : Bool) (r : List Char), l ≠ [] →
      (∀ c ∈ l, isLineTerm c = false) →
      matchToks (RTok.anchorStart :: RTok.star jsSpace :: RTok.cls q :: R)
        true l = some (fl, r) → r = [] ∧ fl = false) :
    ∀ lines : List (List Char),
    (∀ l ∈ lines, wsOnlyLine l = true ∨ goodLine l = true) →
    scanFrom (RTok.anchorStart :: RTok.star jsSpace :: RTok.cls q :: R)
        true (joinNl lines) =
      lines.countP (fun l =>
        (matchToks (RTok.anchorStart :: RTok.star jsSpace :: RTok.cls q :: R)
          true l).isSome) := by
  intro lines
  induction lines with
  | nil =>
    intro _
    show scanFrom _ true [] = 0
    rw [scanFrom_step,
        matchToks_ws_line_none q R hq []
          (by intro c hc; exact absurd hc (List.not_mem_nil c))]
  | cons l rest ih =>
    intro hmem
    have hl := hmem l (List.mem_cons_self l rest)
    have hrest : ∀ m ∈ rest, wsOnlyLine m = true ∨ goodLine m = true :=
      fun m hm => hmem m (List.mem_cons_of_mem l hm)
    cases rest with
    | nil =>
      rcases hl with hws | hgd
      · have h0 := scanFrom_ws_last q R hq l (wsOnlyLine_spec hws)
        have hnone := matchToks_ws_line_none q R hq l
          (fun c hc => (wsOnlyLine_spec hws c hc).1)
        rw [show joinNl [l] = l from rfl, h0]
        simp [List.countP_cons, hnone]
      · obtain ⟨hne, hnl, hsfx⟩ := goodLine_spec hgd
        rw [show joinNl [l] = l from rfl]
        rw [scanFrom_line_last _ l hne hnl (fun fl r h => hrem l fl r hne hnl h)]
        simp [List.countP_cons]
    | cons t ts =>
      rw [show joinNl (l :: t :: ts) = l ++ '\n' :: joinNl (t :: ts) from rfl]
      rcases hl with hws | hgd
      · rw [scanFrom_ws_cons q R hq l (joinNl (t :: ts)) (wsOnlyLine_spec hws)]
        rw [ih hrest]
        have hnone := matchToks_ws_line_none q R hq l
          (fun c hc => (wsOnlyLine_spec hws c hc).1)
        simp [List.countP_cons, hnone]
      · obtain ⟨hne, hnl, hsfx⟩ := goodLine_spec hgd
        rw [scanFrom_line_cons _ l (joinNl (t :: ts)) hne hnl
              (htrans l _ hne hsfx) (fun fl r h => hrem l fl r hne hnl h)]
        rw [ih hrest]
        cases hms : (matchToks
            (RTok.anchorStart :: RTok.star jsSpace :: RTok.cls q :: R)
            true l).isSome
        all_goals simp [List.countP_cons, hms]
        all_goals omega

/-! ## The counters as per-line counts, on well-behaved texts -/

theorem countUncheckedTasks_eq_countP (T : String)
    (h : ∀ l ∈ splitNl T.data, wsOnlyLine l = true ∨ goodLine l = true) :
    countUncheckedTasks T = (splitNl T.data).countP lineMatchesUnchecked := by
  by_cases hd : T.data = []
  · simp only [countUncheckedTasks]
    rw [if_pos hd, hd]
    decide
  · simp only [countUncheckedTasks]
    rw [if_neg hd, scanCount_eq_scanFrom]
    have hrw : joinNl (splitNl T.data) = T.data := joinNl_splitNl T.data
    conv_lhs => rw [← hrw]
    have hPeq : uncheckedScanPat = RTok.anchorStart :: RTok.star jsSpace ::
        RTok.cls (fun c => c == '-') :: RTok.star jsSpace ::
        RTok.cls (fun c => c == '[') :: RTok.star jsSpace ::
        RTok.cls (fun c => c == ']') :: RTok.star jsSpace ::
        RTok.plus isDot :: RTok.anchorEnd :: [] := rfl
    rw [hPeq]
    exact scanFrom_joinNl (fun c => c == '-')
      (RTok.star jsSpace :: RTok.cls (fun c => c == '[') :: RTok.star jsSpace ::
        RTok.cls (fun c => c == ']') :: RTok.star jsSpace ::
        RTok.plus isDot :: RTok.anchorEnd :: [])
      (fun c hc => beq_false_of_jsSpace (by decide) hc)
      (fun l s hne hg => transport_unchecked l s hne hg)
      (fun l fl r hne hnl hm =>
        match_rem_nil_flag uncheckedScanPat rfl l hne hnl fl r hm)
      (splitNl T.data) h

theorem countCheckedTasks_eq_countP (T : String)
    (h : ∀ l ∈ splitNl T.data, wsOnlyLine l = true ∨ goodLine l = true) :
    countCheckedTasks T = (splitNl T.data).countP lineMatchesChecked := by
  by_cases hd : T.data = []
  · simp only [countCheckedTasks]
    rw [if_pos hd, hd]
    decide
  · simp only [countCheckedTasks]
    rw [if_neg hd, scanCount_eq_scanFrom]
    have hrw : joinNl (splitNl T.data) = T.data := joinNl_splitNl T.data
    conv_lhs => rw [← hrw]
    have hPeq : checkedScanPat = RTok.anchorStart :: RTok.star jsSpace ::
        RTok.cls (fun c => c == '-') :: RTok.star jsSpace ::
        RTok.cls (fun c => c == '[') :: RTok.cls isXi ::
        RTok.cls (fun c => c == ']') :: RTok.star jsSpace ::
        RTok.plus isDot :: RTok.anchorEnd :: [] := rfl
    rw [hPeq]
    exact scanFrom_joinNl (fun c => c == '-')
      (RTok.star jsSpace :: RTok.cls (fun c => c == '[') :: RTok.cls isXi ::
        RTok.cls (fun c => c == ']') :: RTok.star jsSpace ::
        RTok.plus isDot :: RTok.anchorEnd :: [])
      (fun c hc => beq_false_of_jsSpace (by decide) hc)
      (fun l s hne hg => transport_checked l s hne hg)
      (fun l fl r hne hnl hm =>
        match_rem_nil_flag checkedScanPat rfl l hne hnl fl r hm)
      (splitNl T.data) h

/-! ## Inversion of the matcher, and disjointness of the two patterns -/

theorem matchToks_anchorStart_inv (ts : List RTok) (s : List Char)
    (v : Bool × List Char)
    (h : matchToks (RTok.anchorStart :: ts) true s = some v) :
    matchToks ts true s = some v := by
  rw [matchToks_anchorStart, if_pos rfl] at h
  exact h

theorem matchToks_cls_inv (p : Char → Bool) (ts : List RTok) (ls : Bool)
    (s : List Char) (v : Bool × List Char)
    (h : matchToks (RTok.cls p :: ts) ls s = some v) :
    ∃ c rest, s = c :: rest ∧ p c = true ∧
      matchToks ts (isLineTerm c) rest = some v := by
  cases s with
  | nil => rw [matchToks_cls_nil] at h; exact Option.noConfusion h
  | cons c rest =>
    rw [matchToks_cls_cons] at h
    by_cases hp : p c = true
    · rw [if_pos hp] at h
      exact ⟨c, rest, rfl, hp, h⟩
    · rw [if_neg hp] at h
      exact Option.noConfusion h

theorem matchRun_star_inv :
    ∀ f (p : Char → Bool) (ts : List RTok) (ls : Bool) (s : List Char)
      (v : Bool × List Char),
    ts.length + 1 + s.length < f →
    matchRun f (RTok.star p :: ts) ls s = some v →
    ∃ a b ls', s = a ++ b ∧ (∀ c ∈ a, p c = true) ∧
      matchToks ts ls' b = some v := by
  intro f
  induction f with
  | zero => intro p ts ls s v hb h; exact Option.noConfusion h
  | succ f ih =>
    intro p ts ls s v hb h
    cases s with
    | nil =>
      have h2 : matchRun f ts ls [] = some v := h
      refine ⟨[], [], ls, rfl, by intro c hc; exact absurd hc (List.not_mem_nil c), ?_⟩
      rw [matchToks_eq_matchRun ts ls [] f
            (by simp only [List.length_nil] at hb ⊢; omega)]
      exact h2
    | cons c rest =>
      simp only [matchRun] at h
      simp only [List.length_cons] at hb
      by_cases hp : p c
      · rw [if_pos hp] at h
        cases hin : matchRun f (RTok.star p :: ts) (isLineTerm c) rest with
        | some w =>
          rw [hin] at h
          have h2 : some w = some v := h
          rw [h2] at hin
          obtain ⟨a, b, ls', hsplit, ha, hm⟩ :=
            ih p ts (isLineTerm c) rest v (by omega) hin
          refine ⟨c :: a, b, ls', by rw [hsplit, List.cons_append], ?_, hm⟩
          intro x hx
          rcases List.mem_cons.mp hx with h1 | h1
          · rw [h1]; exact hp
          · exact ha x h1
        | none =>
          rw [hin] at h
          have h2 : matchRun f ts ls (c :: rest) = some v := h
          refine ⟨[], c :: rest, ls, rfl,
            by intro x hx; exact absurd hx (List.not_mem_nil x), ?_⟩
          rw [matchToks_eq_matchRun ts ls (c :: rest) f
                (by simp only [List.length_cons]; omega)]
          exact h2
      · rw [if_neg hp] at h
        refine ⟨[], c :: rest, ls, rfl,
          by intro x hx; exact absurd hx (List.not_mem_nil x), ?_⟩
        rw [matchToks_eq_matchRun ts ls (c :: rest) f
              (by simp only [List.length_cons]; omega)]
        exact h

theorem matchToks_star_inv (p : Char → Bool) (ts : List RTok) (ls : Bool)
    (s : List Char) (v : Bool × List Char)
    (h : matchToks (RTok.star p :: ts) ls s = some v) :
    ∃ a b ls', s = a ++ b ∧ (∀ c ∈ a, p c = true) ∧
      matchToks ts ls' b = some v := by
  refine matchRun_star_inv _ p ts ls s v ?_ h
  simp only [List.length_cons]
  omega

theorem all_p_split_unique (p : Char → Bool) :
    ∀ (a : List Char) (b : List Char) (c d : Char) (s t : List Char),
    a ++ c :: s = b ++ d :: t → (∀ x ∈ a, p x = true) → (∀ x ∈ b, p x = true) →
    p c = false → p d = false → a = b ∧ c = d ∧ s = t := by
  intro a
  induction a with
  | nil =>
    intro b c d s t heq ha hb hc hd
    cases b with
    | nil =>
      simp only [List.nil_append, List.cons.injEq] at heq
      exact ⟨rfl, heq.1, heq.2⟩
    | cons y b' =>
      simp only [List.nil_append, List.cons_append, List.cons.injEq] at heq
      rw [← heq.1] at hb
      have := hb c (List.mem_cons_self c b')
      rw [this] at hc
      exact Bool.noConfusion hc
  | cons x a' ih =>
    intro b c d s t heq ha hb hc hd
    cases b with
    | nil =>
      simp only [List.cons_append, List.nil_append, List.cons.injEq] at heq
      rw [heq.1] at ha
      have := ha d (List.mem_cons_self d a')
      rw [this] at hd
      exact Bool.noConfusion hd
    | cons y b' =>
      simp only [List.cons_append, List.cons.injEq] at heq
      obtain ⟨hxy, heq'⟩ := heq
      obtain ⟨hab, hcd, hst⟩ := ih b' c d s t heq'
        (fun z hz => ha z (List.mem_cons_of_mem x hz))
        (fun z hz => hb z (List.mem_cons_of_mem y hz)) hc hd
      exact ⟨by rw [hxy, hab], hcd, hst⟩

/-- No line matches both the unchecked and the checked pattern: after the
shared `-` and `[`, the unchecked pattern requires whitespace or `]` where
the checked pattern requires `x` / `X`. -/
theorem lineMatches_disjoint (l : List Char)
    (hu : lineMatchesUnchecked l = true) : lineMatchesChecked l = false := by
  rcases Bool.eq_false_or_eq_true (lineMatchesChecked l) with hcx | hcx
  swap
  · exact hcx
  exfalso
  unfold lineMatchesUnchecked at hu
  unfold lineMatchesChecked at hcx
  rw [Option.isSome_iff_exists] at hu hcx
  obtain ⟨vu, hvu⟩ := hu
  obtain ⟨vc, hvc⟩ := hcx
  have hu1 := matchToks_anchorStart_inv _ _ _ hvu
  have hc1 := matchToks_anchorStart_inv _ _ _ hvc
  obtain ⟨a1, b1, ls1, hsp1, ha1, hm1⟩ := matchToks_star_inv _ _ _ _ _ hu1
  obtain ⟨c1, r1, hb1, hc1', hm1'⟩ := matchToks_cls_inv _ _ _ _ _ hm1
  obtain ⟨a2, b2, ls2, hsp2, ha2, hm2⟩ := matchToks_star_inv _ _ _ _ _ hc1
  obtain ⟨c2, r2, hb2, hc2', hm2'⟩ := matchToks_cls_inv _ _ _ _ _ hm2
  have hdash1 : c1 = '-' := eq_of_beq hc1'
  have hdash2 : c2 = '-' := eq_of_beq hc2'
  have heq0 : a1 ++ c1 :: r1 = a2 ++ c2 :: r2 := by
    rw [← hb1, ← hsp1, ← hb2, ← hsp2]
  obtain ⟨_, _, hr12⟩ := all_p_split_unique jsSpace a1 a2 c1 c2 r1 r2 heq0 ha1 ha2
    (by rw [hdash1]; decide) (by rw [hdash2]; decide)
  subst hr12
  obtain ⟨a3, b3, ls3, hsp3, ha3, hm3⟩ := matchToks_star_inv _ _ _ _ _ hm1'
  obtain ⟨c3, r3, hb3, hc3', hm3'⟩ := matchToks_cls_inv _ _ _ _ _ hm3
  obtain ⟨a4, b4, ls4, hsp4, ha4, hm4⟩ := matchToks_star_inv _ _ _ _ _ hm2'
  obtain ⟨c4, r4, hb4, hc4', hm4'⟩ := matchToks_cls_inv _ _ _ _ _ hm4
  have hlb3 : c3 = '[' := eq_of_beq hc3'
  have hlb4 : c4 = '[' := eq_of_beq hc4'
  have heq1 : a3 ++ c3 :: r3 = a4 ++ c4 :: r4 := by
    rw [← hb3, ← hsp3, ← hb4, ← hsp4]
  obtain ⟨_, _, hr34⟩ := all_p_split_unique jsSpace a3 a4 c3 c4 r3 r4 heq1 ha3 ha4
    (by rw [hlb3]; decide) (by rw [hlb4]; decide)
  subst hr34
  -- unchecked side: r3 = a5 ++ ']' :: _, with a5 all whitespace
  obtain ⟨a5, b5, ls5, hsp5, ha5, hm5⟩ := matchToks_star_inv _ _ _ _ _ hm3'
  obtain ⟨c5, r5, hb5, hc5', _⟩ := matchToks_cls_inv _ _ _ _ _ hm5
  have hrb5 : c5 = ']' := eq_of_beq hc5'
  -- checked side: r3 = cx :: _, with isXi cx
  obtain ⟨cx, rx, hbx, hcx', _⟩ := matchToks_cls_inv _ _ _ _ _ hm4'
  have hx : cx = 'x' ∨ cx = 'X' := by
    unfold isXi at hcx'
    rw [Bool.or_eq_true] at hcx'
    rcases hcx' with hh | hh
    · exact Or.inl (eq_of_beq hh)
    · exact Or.inr (eq_of_beq hh)
  rw [hsp5, hb5] at hbx
  cases a5 with
  | nil =>
    simp only [List.nil_append, List.cons.injEq] at hbx
    rcases hx with hh | hh
    · rw [hh, hrb5] at hbx
      exact absurd hbx.1 (by decide)
    · rw [hh, hrb5] at hbx
      exact absurd hbx.1 (by decide)
  | cons y a5' =>
    simp only [List.cons_append, List.cons.injEq] at hbx
    have hy : jsSpace y = true := ha5 y (List.mem_cons_self y a5')
    rcases hx with hh | hh
    · rw [hbx.1, hh] at hy
      exact absurd hy (by decide)
    · rw [hbx.1, hh] at hy
      exact absurd hy (by decide)

theorem countP_add_disjoint {α : Type} (p q : α → Bool) :
    ∀ l : List α, (∀ x ∈ l, p x = true → q x = false) →
    l.countP p + l.countP q = l.countP (fun x => p x || q x) := by
  intro l
  induction l with
  | nil => intro _; rfl
  | cons a l' ih =>
    intro hd
    have hrec := ih (fun x hx => hd x (List.mem_cons_of_mem a hx))
    cases hp : p a with
    | true =>
      have hq := hd a (List.mem_cons_self a l') hp
      rw [List.countP_cons_of_pos p l' hp,
          List.countP_cons_of_neg q l' (by simp [hq]),
          List.countP_cons_of_pos (fun x => p x || q x) l' (by simp [hp])]
      omega
    | false =>
      cases hq : q a with
      | true =>
        rw [List.countP_cons_of_neg p l' (by simp [hp]),
            List.countP_cons_of_pos q l' hq,
            List.countP_cons_of_pos (fun x => p x || q x) l' (by simp [hq])]
        omega
      | false =>
        rw [List.countP_cons_of_neg p l' (by simp [hp]),
            List.countP_cons_of_neg q l' (by simp [hq]),
            List.countP_cons_of_neg (fun x => p x || q x) l' (by simp [hp, hq])]
        omega

/-! ## Evaluating the toggle patterns on canonical task lines -/

theorem takeWhile_all_append (p : Char → Bool) :
    ∀ (a : List Char) (c : Char) (s : List Char),
    (∀ x ∈ a, p x = true) → p c = false →
    (a ++ c :: s).takeWhile p = a := by
  intro a
  induction a with
  | nil =>
    intro c s _ hc
    rw [List.nil_append, List.takeWhile_cons, hc]
    rfl
  | cons x a' ih =>
    intro c s ha hc
    rw [List.cons_append, List.takeWhile_cons, ha x (List.mem_cons_self x a')]
    rw [ih c s (fun z hz => ha z (List.mem_cons_of_mem x hz)) hc]
    simp

theorem matchToks_star_stop (p q : Char → Bool) (R : List RTok)
    (hq : ∀ c, p c = true → q c = false) :
    ∀ (a : List Char) (c : Char) (s : List Char) (ls : Bool),
    (∀ x ∈ a, p x = true) → p c = false →
    matchToks (RTok.star p :: RTok.cls q :: R) ls (a ++ c :: s) =
      matchToks (RTok.cls q :: R) (flagAfter ls a) (c :: s) := by
  intro a
  induction a with
  | nil =>
    intro c s ls _ hc
    rw [List.nil_append, matchToks_star_cons, if_neg (by simp [hc])]
    rfl
  | cons d a' ih =>
    intro c s ls ha hc
    have hd : p d = true := ha d (List.mem_cons_self d a')
    rw [List.cons_append, matchToks_star_cons, if_pos hd]
    rw [ih c s (isLineTerm d) (fun z hz => ha z (List.mem_cons_of_mem d hz)) hc]
    have hflag : flagAfter (isLineTerm d) a' = flagAfter ls (d :: a') := by
      unfold flagAfter
      cases a' with
      | nil => rfl
      | cons e a'' =>
        rw [List.getLast?_cons_cons]
        cases hgl : (e :: a'').getLast? with
        | none =>
          rw [List.getLast?_eq_none_iff] at hgl
          exact absurd hgl (by simp)
        | some g => rfl
    rw [hflag]
    cases hx : matchToks (RTok.cls q :: R) (flagAfter ls (d :: a')) (c :: s) with
    | some v => rfl
    | none =>
      show matchToks (RTok.cls q :: R) ls (d :: (a' ++ c :: s)) = none
      rw [matchToks_cls_cons, hq d hd]
      rfl

theorem eval_tail_space (c : Char) (text : List Char) (hc : jsSpace c = false)
    (ls : Bool) :
    matchToks [RTok.star jsSpace] ls (' ' :: c :: text) =
      some (false, c :: text) := by
  rw [matchToks_star_cons, if_pos (by decide)]
  have hin : matchToks [RTok.star jsSpace] (isLineTerm ' ') (c :: text) =
      some (isLineTerm ' ', c :: text) := by
    rw [matchToks_star_cons, if_neg (by simp [hc])]
    rw [matchToks_nil]
  rw [hin]
  rfl

theorem eval_rbrack (c : Char) (text : List Char) (hc : jsSpace c = false)
    (ls : Bool) :
    matchToks (RTok.cls (fun x => x == ']') :: RTok.star jsSpace :: [])
        ls (']' :: ' ' :: c :: text) = some (false, c :: text) := by
  rw [matchToks_cls_cons, if_pos (by decide)]
  exact eval_tail_space c text hc (isLineTerm ']')

theorem eval_ws_rbrack (c : Char) (text : List Char) (hc : jsSpace c = false)
    (ls : Bool) :
    matchToks (RTok.star jsSpace :: RTok.cls (fun x => x == ']') ::
        RTok.star jsSpace :: []) ls (' ' :: ']' :: ' ' :: c :: text) =
      some (false, c :: text) := by
  rw [matchToks_star_cons, if_pos (by decide)]
  have hin : matchToks (RTok.star jsSpace :: RTok.cls (fun x => x == ']') ::
      RTok.star jsSpace :: []) (isLineTerm ' ') (']' :: ' ' :: c :: text) =
      some (false, c :: text) := by
    rw [matchToks_star_cons, if_neg (by decide)]
    exact eval_rbrack c text hc (isLineTerm ' ')
  rw [hin]

theorem eval_lbrack_unchecked (c : Char) (text : List Char)
    (hc : jsSpace c = false) (ls : Bool) :
    matchToks (RTok.cls (fun x => x == '[') :: RTok.star jsSpace ::
        RTok.cls (fun x => x == ']') :: RTok.star jsSpace :: [])
        ls ('[' :: ' ' :: ']' :: ' ' :: c :: text) = some (false, c :: text) := by
  rw [matchToks_cls_cons, if_pos (by decide)]
  exact eval_ws_rbrack c text hc (isLineTerm '[')

theorem eval_ws_lbrack_unchecked (c : Char) (text : List Char)
    (hc : jsSpace c = false) (ls : Bool) :
    matchToks (RTok.star jsSpace :: RTok.cls (fun x => x == '[') ::
        RTok.star jsSpace :: RTok.cls (fun x => x == ']') ::
        RTok.star jsSpace :: []) ls (' ' :: '[' :: ' ' :: ']' :: ' ' :: c :: text) =
      some (false, c :: text) := by
  rw [matchToks_star_cons, if_pos (by decide)]
  have hin : matchToks (RTok.star jsSpace :: RTok.cls (fun x => x == '[') ::
      RTok.star jsSpace :: RTok.cls (fun x => x == ']') ::
      RTok.star jsSpace :: []) (isLineTerm ' ')
      ('[' :: ' ' :: ']' :: ' ' :: c :: text) = some (false, c :: text) := by
    rw [matchToks_star_cons, if_neg (by decide)]
    exact eval_lbrack_unchecked c text hc (isLineTerm ' ')
  rw [hin]

theorem eval_dash_unchecked (c : Char) (text : List Char)
    (hc : jsSpace c = false) (ls : Bool) :
    matchToks (RTok.cls (fun x => x == '-') :: RTok.star jsSpace ::
        RTok.cls (fun x => x == '[') :: RTok.star jsSpace ::
        RTok.cls (fun x => x == ']') :: RTok.star jsSpace :: [])
        ls ('-' :: ' ' :: '[' :: ' ' :: ']' :: ' ' :: c :: text) =
      some (false, c :: text) := by
  rw [matchToks_cls_cons, if_pos (by decide)]
  exact eval_ws_lbrack_unchecked c text hc (isLineTerm '-')

/-- The toggle handler's unchecked regex on a canonically spelled unchecked
task line: it matches, and the remainder is exactly the task text. -/
theorem matchToks_toggleU_canonicalU (ind : List Char) (c : Char)
    (text : List Char) (hind : ∀ x ∈ ind, jsSpace x = true)
    (hc : jsSpace c = false) :
    matchToks toggleUncheckedPat true
        (ind ++ '-' :: ' ' :: '[' :: ' ' :: ']' :: ' ' :: c :: text) =
      some (false, c :: text) := by
  have hPeq : toggleUncheckedPat = RTok.anchorStart :: RTok.star jsSpace ::
      RTok.cls (fun x => x == '-') :: RTok.star jsSpace ::
      RTok.cls (fun x => x == '[') :: RTok.star jsSpace ::
      RTok.cls (fun x => x == ']') :: RTok.star jsSpace :: [] := rfl
  rw [hPeq, matchToks_anchorStart, if_pos rfl]
  rw [matchToks_star_stop jsSpace (fun x => x == '-') _
        (fun x hx => beq_false_of_jsSpace (by decide) hx) ind '-' _ true hind
        (by decide)]
  exact eval_dash_unchecked c text hc (flagAfter true ind)

theorem evalN_ws_rbrack (m : Char) (rest : List Char)
    (hmws : jsSpace m = false) (hmne : (m == ']') = false) (ls : Bool) :
    matchToks (RTok.star jsSpace :: RTok.cls (fun x => x == ']') ::
        RTok.star jsSpace :: []) ls (m :: rest) = none := by
  rw [matchToks_star_cons, if_neg (by simp [hmws])]
  rw [matchToks_cls_cons, hmne]
  rfl

theorem evalN_lbrack (m : Char) (rest : List Char)
    (hmws : jsSpace m = false) (hmne : (m == ']') = false) (ls : Bool) :
    matchToks (RTok.cls (fun x => x == '[') :: RTok.star jsSpace ::
        RTok.cls (fun x => x == ']') :: RTok.star jsSpace :: [])
        ls ('[' :: m :: rest) = none := by
  rw [matchToks_cls_cons, if_pos (by decide)]
  exact evalN_ws_rbrack m rest hmws hmne (isLineTerm '[')

theorem evalN_ws_lbrack (m : Char) (rest : List Char)
    (hmws : jsSpace m = false) (hmne : (m == ']') = false) (ls : Bool) :
    matchToks (RTok.star jsSpace :: RTok.cls (fun x => x == '[') ::
        RTok.star jsSpace :: RTok.cls (fun x => x == ']') ::
        RTok.star jsSpace :: []) ls (' ' :: '[' :: m :: rest) = none := by
  rw [matchToks_star_cons, if_pos (by decide)]
  have hin : matchToks (RTok.star jsSpace :: RTok.cls (fun x => x == '[') ::
      RTok.star jsSpace :: RTok.cls (fun x => x == ']') ::
      RTok.star jsSpace :: []) (isLineTerm ' ') ('[' :: m :: rest) = none := by
    rw [matchToks_star_cons, if_neg (by decide)]
    exact evalN_lbrack m rest hmws hmne (isLineTerm ' ')
  rw [hin]
  show matchToks (RTok.cls (fun x => x == '[') :: RTok.star jsSpace ::
      RTok.cls (fun x => x == ']') :: RTok.star jsSpace :: [])
      ls (' ' :: '[' :: m :: rest) = none
  rw [matchToks_cls_cons, if_neg (by decide)]

theorem evalN_dash (m : Char) (rest : List Char)
    (hmws : jsSpace m = false) (hmne : (m == ']') = false) (ls : Bool) :
    matchToks (RTok.cls (fun x => x == '-') :: RTok.star jsSpace ::
        RTok.cls (fun x => x == '[') :: RTok.star jsSpace ::
        RTok.cls (fun x => x == ']') :: RTok.star jsSpace :: [])
        ls ('-' :: ' ' :: '[' :: m :: rest) = none := by
  rw [matchToks_cls_cons, if_pos (by decide)]
  exact evalN_ws_lbrack m rest hmws hmne (isLineTerm '-')

/-- The toggle handler's unchecked regex fails on a canonically spelled
checked task line (whose marker is not whitespace and not `]`). -/
theorem matchToks_toggleU_canonicalC (ind : List Char) (m : Char)
    (rest : List Char) (hind : ∀ x ∈ ind, jsSpace x = true)
    (hmws : jsSpace m = false) (hmne : (m == ']') = false) :
    matchToks toggleUncheckedPat true
        (ind ++ '-' :: ' ' :: '[' :: m :: rest) = none := by
  have hPeq : toggleUncheckedPat = RTok.anchorStart :: RTok.star jsSpace ::
      RTok.cls (fun x => x == '-') :: RTok.star jsSpace ::
      RTok.cls (fun x => x == '[') :: RTok.star jsSpace ::
      RTok.cls (fun x => x == ']') :: RTok.star jsSpace :: [] := rfl
  rw [hPeq, matchToks_anchorStart, if_pos rfl]
  rw [matchToks_star_stop jsSpace (fun x => x == '-') _
        (fun x hx => beq_false_of_jsSpace (by decide) hx) ind '-' _ true hind
        (by decide)]
  exact evalN_dash m rest hmws hmne (flagAfter true ind)

theorem evalC_xi (m : Char) (c : Char) (text : List Char)
    (hxm : isXi m = true) (hc : jsSpace c = false) (ls : Bool) :
    matchToks (RTok.cls isXi :: RTok.cls (fun x => x == ']') ::
        RTok.star jsSpace :: []) ls (m :: ']' :: ' ' :: c :: text) =
      some (false, c :: text) := by
  rw [matchToks_cls_cons, if_pos hxm]
  exact eval_rbrack c text hc (isLineTerm m)

theorem evalC_lbrack (m : Char) (c : Char) (text : List Char)
    (hxm : isXi m = true) (hc : jsSpace c = false) (ls : Bool) :
    matchToks (RTok.cls (fun x => x == '[') :: RTok.cls isXi ::
        RTok.cls (fun x => x == ']') :: RTok.star jsSpace :: [])
        ls ('[' :: m :: ']' :: ' ' :: c :: text) = some (false, c :: text) := by
  rw [matchToks_cls_cons, if_pos (by decide)]
  exact evalC_xi m c text hxm hc (isLineTerm '[')

theorem evalC_ws_lbrack (m : Char) (c : Char) (text : List Char)
    (hxm : isXi m = true) (hc : jsSpace c = false) (ls : Bool) :
    matchToks (RTok.star jsSpace :: RTok.cls (fun x => x == '[') ::
        RTok.cls isXi :: RTok.cls (fun x => x == ']') ::
        RTok.star jsSpace :: []) ls (' ' :: '[' :: m :: ']' :: ' ' :: c :: text) =
      some (false, c :: text) := by
  rw [matchToks_star_cons, if_pos (by decide)]
  have hin : matchToks (RTok.star jsSpace :: RTok.cls (fun x => x == '[') ::
      RTok.cls isXi :: RTok.cls (fun x => x == ']') ::
      RTok.star jsSpace :: []) (isLineTerm ' ')
      ('[' :: m :: ']' :: ' ' :: c :: text) = some (false, c :: text) := by
    rw [matchToks_star_cons, if_neg (by decide)]
    exact evalC_lbrack m c text hxm hc (isLineTerm ' ')
  rw [hin]

theorem evalC_dash (m : Char) (c : Char) (text : List Char)
    (hxm : isXi m = true) (hc : jsSpace c = false) (ls : Bool) :
    matchToks (RTok.cls (fun x => x == '-') :: RTok.star jsSpace ::
        RTok.cls (fun x => x == '[') :: RTok.cls isXi ::
        RTok.cls (fun x => x == ']') :: RTok.star jsSpace :: [])
        ls ('-' :: ' ' :: '[' :: m :: ']' :: ' ' :: c :: text) =
      some (false, c :: text) := by
  rw [matchToks_cls_cons, if_pos (by decide)]
  exact evalC_ws_lbrack m c text hxm hc (isLineTerm '-')

/-- The toggle handler's checked regex on a canonically spelled checked task
line: it matches, and the remainder is exactly the task text. -/
theorem matchToks_toggleC_canonicalC (ind : List Char) (m : Char) (c : Char)
    (text : List Char) (hind : ∀ x ∈ ind, jsSpace x = true)
    (hxm : isXi m = true) (hc : jsSpace c = false) :
    matchToks toggleCheckedPat true
        (ind ++ '-' :: ' ' :: '[' :: m :: ']' :: ' ' :: c :: text) =
      some (false, c :: text) := by
  have hPeq : toggleCheckedPat = RTok.anchorStart :: RTok.star jsSpace ::
      RTok.cls (fun x => x == '-') :: RTok.star jsSpace ::
      RTok.cls (fun x => x == '[') :: RTok.cls isXi ::
      RTok.cls (fun x => x == ']') :: RTok.star jsSpace :: [] := rfl
  rw [hPeq, matchToks_anchorStart, if_pos rfl]
  rw [matchToks_star_stop jsSpace (fun x => x == '-') _
        (fun x hx => beq_false_of_jsSpace (by decide) hx) ind '-' _ true hind
        (by decide)]
  exact evalC_dash m c text hxm hc (flagAfter true ind)

/-- Toggling a canonically spelled unchecked line rewrites exactly the
marker. -/
theorem toggleLine_canonical_unchecked (ind : List Char) (c : Char)
    (text : List Char) (hind : ∀ x ∈ ind, jsSpace x = true)
    (hc : jsSpace c = false) :
    toggleLine (ind ++ '-' :: ' ' :: '[' :: ' ' :: ']' :: ' ' :: c :: text) =
      ind ++ '-' :: ' ' :: '[' :: 'x' :: ']' :: ' ' :: c :: text := by
  unfold toggleLine
  rw [matchToks_toggleU_canonicalU ind c text hind hc]
  show (ind ++ '-' :: ' ' :: '[' :: ' ' :: ']' :: ' ' :: c :: text).takeWhile
      jsSpace ++ ('-' :: ' ' :: '[' :: 'x' :: ']' :: ' ' :: []) ++ (c :: text) = _
  rw [takeWhile_all_append jsSpace ind '-' _ hind (by decide)]
  simp

/-- Toggling a canonically spelled checked line (marker `x` or `X`) rewrites
exactly the marker. -/
theorem toggleLine_canonical_checked (ind : List Char) (m : Char) (c : Char)
    (text : List Char) (hind : ∀ x ∈ ind, jsSpace x = true)
    (hm : m = 'x' ∨ m = 'X') (hc : jsSpace c = false) :
    toggleLine (ind ++ '-' :: ' ' :: '[' :: m :: ']' :: ' ' :: c :: text) =
      ind ++ '-' :: ' ' :: '[' :: ' ' :: ']' :: ' ' :: c :: text := by
  have hmws : jsSpace m = false := by rcases hm with h | h <;> subst h <;> decide
  have hmne : (m == ']') = false := by rcases hm with h | h <;> subst h <;> decide
  have hxm : isXi m = true := by rcases hm with h | h <;> subst h <;> decide
  unfold toggleLine
  rw [matchToks_toggleU_canonicalC ind m (']' :: ' ' :: c :: text) hind hmws hmne]
  show (match matchToks toggleCheckedPat true
      (ind ++ '-' :: ' ' :: '[' :: m :: ']' :: ' ' :: c :: text) with
    | some (_, r) =>
        (ind ++ '-' :: ' ' :: '[' :: m :: ']' :: ' ' :: c :: text).takeWhile
          jsSpace ++ ('-' :: ' ' :: '[' :: ' ' :: ']' :: ' ' :: []) ++ r
    | none => ind ++ '-' :: ' ' :: '[' :: m :: ']' :: ' ' :: c :: text) = _
  rw [matchToks_toggleC_canonicalC ind m c text hind hxm hc]
  show (ind ++ '-' :: ' ' :: '[' :: m :: ']' :: ' ' :: c :: text).takeWhile
      jsSpace ++ ('-' :: ' ' :: '[' :: ' ' :: ']' :: ' ' :: []) ++ (c :: text) = _
  rw [takeWhile_all_append jsSpace ind '-' _ hind (by decide)]
  simp

/-! ## The toggle handler at the level of whole contents -/

theorem toggleLine_no_nl (l : List Char) (h : '\n' ∉ l) :
    '\n' ∉ toggleLine l := by
  unfold toggleLine
  cases hm : matchToks toggleUncheckedPat true l with
  | some v =>
    obtain ⟨fl, r⟩ := v
    show '\n' ∉ l.takeWhile jsSpace ++ ('-' :: ' ' :: '[' :: 'x' :: ']' :: ' ' :: []) ++ r
    intro hmem
    rcases List.mem_append.mp hmem with h1 | h1
    · rcases List.mem_append.mp h1 with h2 | h2
      · exact h ((List.takeWhile_sublist jsSpace).subset h2)
      · simp at h2
    · exact h ((matchToks_remainder_suffix _ _ _ _ _ hm).subset h1)
  | none =>
    cases hm2 : matchToks toggleCheckedPat true l with
    | some v =>
      obtain ⟨fl, r⟩ := v
      show '\n' ∉ l.takeWhile jsSpace ++ ('-' :: ' ' :: '[' :: ' ' :: ']' :: ' ' :: []) ++ r
      intro hmem
      rcases List.mem_append.mp hmem with h1 | h1
      · rcases List.mem_append.mp h1 with h2 | h2
        · exact h ((List.takeWhile_sublist jsSpace).subset h2)
        · simp at h2
      · exact h ((matchToks_remainder_suffix _ _ _ _ _ hm2).subset h1)
    | none => exact h

theorem handleToggleTask_def (content : String) (li : Int) :
    handleToggleTask content li = String.mk (joinNl (
      if li < 0 then splitNl content.data
      else (splitNl content.data).set li.toNat
        (toggleLine ((splitNl content.data).getD li.toNat [])))) := rfl

theorem String_mk_data (s : String) : String.mk s.data = s := rfl

theorem handleToggleTask_out_of_range (content : String) (li : Int)
    (h : li < 0 ∨ (splitNl content.data).length ≤ li.toNat) :
    handleToggleTask content li = content := by
  rw [handleToggleTask_def]
  by_cases hneg : li < 0
  · rw [if_pos hneg, joinNl_splitNl]
  · rw [if_neg hneg]
    have hge : (splitNl content.data).length ≤ li.toNat := by
      rcases h with h1 | h1
      · exact absurd h1 hneg
      · exact h1
    rw [List.getD_eq_default _ _ hge]
    have htog : toggleLine [] = [] := rfl
    rw [htog, List.set_eq_of_length_le hge, joinNl_splitNl]

theorem handleToggleTask_lines (content : String) (i : Nat)
    (hi : i < (splitNl content.data).length) :
    splitNl (handleToggleTask content (i : Int)).data =
      (splitNl content.data).set i
        (toggleLine ((splitNl content.data).getD i [])) := by
  rw [handleToggleTask_def]
  rw [if_neg (by omega)]
  have htn : ((i : Int)).toNat = i := rfl
  rw [htn]
  show splitNl (joinNl ((splitNl content.data).set i
      (toggleLine ((splitNl content.data).getD i [])))) = _
  refine splitNl_joinNl _ ?_ ?_
  · intro hnil
    have hlen := congrArg List.length hnil
    rw [List.length_set] at hlen
    have := splitNl_ne_nil content.data
    rw [← List.length_eq_zero] at hnil
    rw [List.length_set] at hnil
    have hpos : 0 < (splitNl content.data).length := by omega
    omega
  · intro l hl
    rcases List.mem_or_eq_of_mem_set hl with h1 | h1
    · exact no_nl_of_mem_splitNl _ l h1
    · rw [h1]
      refine toggleLine_no_nl _ ?_
      rw [List.getD_eq_getElem _ _ hi]
      exact no_nl_of_mem_splitNl _ _ (List.getElem_mem hi)

theorem getD_set_self {α : Type} (l : List α) (i : Nat) (a d : α)
    (h : i < l.length) : (l.set i a).getD i d = a := by
  rw [List.getD_eq_getElem?_getD, List.getElem?_set_self h]
  rfl

theorem getD_set_ne {α : Type} (l : List α) (i j : Nat) (a d : α)
    (h : i ≠ j) : (l.set i a).getD j d = l.getD j d := by
  rw [List.getD_eq_getElem?_getD, List.getElem?_set_ne h,
      ← List.getD_eq_getElem?_getD]

theorem set_getD_self {α : Type} (d : α) :
    ∀ (l : List α) (i : Nat), i < l.length → l.set i (l.getD i d) = l := by
  intro l
  induction l with
  | nil => intro i h; simp at h
  | cons a l' ih =>
    intro i h
    cases i with
    | zero => rfl
    | succ j =>
      show a :: l'.set j (l'.getD j d) = a :: l'
      rw [ih j (by simpa using h)]

/-- Toggling the line at a valid index whose line is a canonically spelled
task line (`indent ++ "- [m] " ++ text`, marker `m` one of blank, `x`, `X`,
text starting with a non-whitespace character) rewrites exactly the marker:
blank becomes `x` and `x` / `X` becomes blank, everything else unchanged. -/
theorem toggle_line_at (content : String) (i : Nat) (ind : List Char)
    (m c : Char) (text : List Char)
    (hind : ∀ x ∈ ind, jsSpace x = true)
    (hm : m = ' ' ∨ m = 'x' ∨ m = 'X')
    (hc : jsSpace c = false)
    (hline : (splitNl content.data).getD i [] =
      ind ++ '-' :: ' ' :: '[' :: m :: ']' :: ' ' :: c :: text)
    (hi : i < (splitNl content.data).length) :
    (splitNl (handleToggleTask content (i : Int)).data).getD i [] =
      ind ++ '-' :: ' ' :: '[' :: (if m = ' ' then 'x' else ' ') :: ']' ::
        ' ' :: c :: text := by
  rw [handleToggleTask_lines content i hi, hline]
  rcases hm with h | h | h
  · subst h
    rw [toggleLine_canonical_unchecked ind c text hind hc, if_pos rfl]
    exact getD_set_self _ i _ [] hi
  · subst h
    rw [toggleLine_canonical_checked ind 'x' c text hind (Or.inl rfl) hc,
        if_neg (by decide)]
    exact getD_set_self _ i _ [] hi
  · subst h
    rw [toggleLine_canonical_checked ind 'X' c text hind (Or.inr rfl) hc,
        if_neg (by decide)]
    exact getD_set_self _ i _ [] hi

/-! ## The claims -/

/-- C1, counterexample: the line `"-  [ ] a"` (two blanks after the dash) is
a task line both for the code's pattern and for the spec's pattern, but
toggling it yields `"- [x] a"`, which is shorter than the original — more
than the bracket marker changed (the regex replacement normalizes the
spacing around the dash and brackets). -/
theorem claim_C1_counterexample :
    lineMatchesUnchecked "-  [ ] a".data = true ∧
    specLineUnchecked "-  [ ] a".data = true ∧
    handleToggleTask "-  [ ] a" 0 = "- [x] a" ∧
    ¬ ChangesOnlyMarker "-  [ ] a".data "- [x] a".data := by
  refine ⟨by decide, by decide, by decide, ?_⟩
  intro h
  exact absurd h.1 (by decide)

/-- C1, amended: for a task line written with the canonical single spacing
`indent ++ "- [m] " ++ text` (marker `m` a blank, `x` or `X`; text starting
with a non-whitespace character), toggling that line's index changes only
the bracket marker: the indentation and the trailing text are preserved
exactly, and the marker flips between blank and `x`. -/
theorem claim_C1_amended (content : String) (i : Nat) (ind : List Char)
    (m c : Char) (text : List Char)
    (hind : ∀ x ∈ ind, jsSpace x = true)
    (hm : m = ' ' ∨ m = 'x' ∨ m = 'X')
    (hc : jsSpace c = false)
    (hline : (splitNl content.data).getD i [] =
      ind ++ '-' :: ' ' :: '[' :: m :: ']' :: ' ' :: c :: text)
    (hi : i < (splitNl content.data).length) :
    (splitNl (handleToggleTask content (i : Int)).data).getD i [] =
      ind ++ '-' :: ' ' :: '[' :: (if m = ' ' then 'x' else ' ') :: ']' ::
        ' ' :: c :: text :=
  toggle_line_at content i ind m c text hind hm hc hline hi

/-- C1, witness: toggling line 0 of `"- [ ] a"` yields the line
`"- [x] a"`. -/
theorem claim_C1_witness :
    (splitNl (handleToggleTask "- [ ] a" ((0 : Nat) : Int)).data).getD 0 [] =
      [] ++ '-' :: ' ' :: '[' :: (if ' ' = ' ' then 'x' else ' ') :: ']' ::
        ' ' :: 'a' :: [] :=
  claim_C1_amended "- [ ] a" 0 [] ' ' 'a' [] (by decide) (Or.inl rfl)
    (by decide) (by decide) (by decide)

/-- C2, counterexample: the line `"-  [ ] a"` matches the unchecked checkbox
pattern (both the code's and the spec's), but toggling index 0 twice yields
`"- [ ] a"`, not the original line: the first toggle already normalized the
spacing, so the round trip is not the identity. -/
theorem claim_C2_counterexample :
    lineMatchesUnchecked "-  [ ] a".data = true ∧
    specLineUnchecked "-  [ ] a".data = true ∧
    handleToggleTask (handleToggleTask "-  [ ] a" 0) 0 = "- [ ] a" ∧
    ("- [ ] a" : String) ≠ "-  [ ] a" := by
  refine ⟨by decide, by decide, by decide, by decide⟩

/-- C2, amended: for an unchecked task line written with the canonical
single spacing `indent ++ "- [ ] " ++ text` (text starting with a
non-whitespace character), toggling that index twice restores the line
exactly, indentation and text included. -/
theorem claim_C2_amended (content : String) (i : Nat) (ind : List Char)
    (c : Char) (text : List Char)
    (hind : ∀ x ∈ ind, jsSpace x = true) (hc : jsSpace c = false)
    (hline : (splitNl content.data).getD i [] =
      ind ++ '-' :: ' ' :: '[' :: ' ' :: ']' :: ' ' :: c :: text)
    (hi : i < (splitNl content.data).length) :
    (splitNl (handleToggleTask (handleToggleTask content (i : Int))
        (i : Int)).data).getD i [] =
      (splitNl content.data).getD i [] := by
  have h1 := toggle_line_at content i ind ' ' c text hind (Or.inl rfl) hc hline hi
  rw [if_pos rfl] at h1
  have hi1 : i < (splitNl (handleToggleTask content (i : Int)).data).length := by
    rw [handleToggleTask_lines content i hi, List.length_set]
    exact hi
  have h2 := toggle_line_at (handleToggleTask content (i : Int)) i ind 'x' c text
    hind (Or.inr (Or.inl rfl)) hc h1 hi1
  rw [if_neg (by decide)] at h2
  rw [h2, hline]

/-- C2, witness: toggling line 0 of `"  - [ ] task"` twice restores the
line. -/
theorem claim_C2_witness :
    (splitNl (handleToggleTask (handleToggleTask "  - [ ] task"
        ((0 : Nat) : Int)) ((0 : Nat) : Int)).data).getD 0 [] =
      (splitNl "  - [ ] task".data).getD 0 [] :=
  claim_C2_amended "  - [ ] task" 0 [' ', ' '] 't' ['a', 's', 'k']
    (by decide) (by decide) (by decide) (by decide)

/-- C3, counterexample: the line `"-[]"` is not a task line under any
reading (it matches neither the code's counting patterns nor the spec's
task-line patterns, all of which require task text after the brackets), yet
the toggle handler rewrites it to `"- [x] "` — the toggle regexes require no
text after the brackets, so the handler is not a no-op on this non-task
line. -/
theorem claim_C3_counterexample :
    lineMatchesUnchecked "-[]".data = false ∧
    lineMatchesChecked "-[]".data = false ∧
    specLineUnchecked "-[]".data = false ∧
    specLineChecked "-[]".data = false ∧
    handleToggleTask "-[]" 0 = "- [x] " ∧
    ("- [x] " : String) ≠ "-[]" := by
  refine ⟨by decide, by decide, by decide, by decide, by decide, by decide⟩

/-- C3, amended: the toggle handler is a no-op on every index whose line
matches neither of the handler's own prefix regexes
(`^\s*-\s*\[\s*\]\s*` and `^\s*-\s*\[x\]\s*` case-insensitive): the
resulting content equals the input content. -/
theorem claim_C3_amended (content : String) (li : Int)
    (hu : matchToks toggleUncheckedPat true
      ((splitNl content.data).getD li.toNat []) = none)
    (hcx : matchToks toggleCheckedPat true
      ((splitNl content.data).getD li.toNat []) = none) :
    handleToggleTask content li = content := by
  rw [handleToggleTask_def]
  by_cases hneg : li < 0
  · rw [if_pos hneg, joinNl_splitNl]
  · rw [if_neg hneg]
    have htog : toggleLine ((splitNl content.data).getD li.toNat []) =
        (splitNl content.data).getD li.toNat [] := by
      unfold toggleLine
      rw [hu, hcx]
    rw [htog]
    by_cases hrange : li.toNat < (splitNl content.data).length
    · rw [set_getD_self [] _ _ hrange, joinNl_splitNl]
    · rw [List.set_eq_of_length_le (by omega), joinNl_splitNl]

/-- C3, witness: toggling line 0 of `"hello"` leaves the content
unchanged. -/
theorem claim_C3_witness : handleToggleTask "hello" 0 = "hello" :=
  claim_C3_amended "hello" 0 (by decide) (by decide)

/-- C4, counterexample: on `"- [ ] \n- [ ] b"` both lines match the
unchecked checkbox pattern as standalone lines, but the whole-text scan
counts only one match, because the greedy `\s*` after `\]` crosses the
newline and swallows the second line as the first match's task text; the sum
of the counters is 1 while 2 lines match. -/
theorem claim_C4_counterexample :
    countUncheckedTasks "- [ ] \n- [ ] b" +
      countCheckedTasks "- [ ] \n- [ ] b" = 1 ∧
    (splitNl "- [ ] \n- [ ] b".data).countP
      (fun l => lineMatchesUnchecked l || lineMatchesChecked l) = 2 ∧
    (1 : Nat) ≠ 2 := by
  refine ⟨by decide, by decide, by decide⟩

/-- C4, amended: on texts whose every line is either whitespace-only
(without stray line terminators) or ends in a character other than
whitespace, `-`, `[`, `]`, the sum of the two counters equals the number of
lines matching either checkbox pattern (and no line is counted twice, the
two patterns being mutually exclusive). -/
theorem claim_C4_amended (T : String)
    (h : ∀ l ∈ splitNl T.data, wsOnlyLine l = true ∨ goodLine l = true) :
    countUncheckedTasks T + countCheckedTasks T =
      (splitNl T.data).countP
        (fun l => lineMatchesUnchecked l || lineMatchesChecked l) := by
  rw [countUncheckedTasks_eq_countP T h, countCheckedTasks_eq_countP T h]
  exact countP_add_disjoint _ _ _ (fun l _ hl => lineMatches_disjoint l hl)

/-- C4, witness: on `"- [ ] a\n- [x] b\n\nplain"` the counters sum to the
number of checkbox lines. -/
theorem claim_C4_witness :
    countUncheckedTasks "- [ ] a\n- [x] b\n\nplain" +
      countCheckedTasks "- [ ] a\n- [x] b\n\nplain" =
    (splitNl "- [ ] a\n- [x] b\n\nplain".data).countP
      (fun l => lineMatchesUnchecked l || lineMatchesChecked l) :=
  claim_C4_amended "- [ ] a\n- [x] b\n\nplain" (by decide)

/-- C5, counterexample: `countUncheckedTasks "- [] x" = 1` — the code's
regex accepts any amount of whitespace between the brackets (`\[\s*\]`) —
but no line of that text matches the spec's pattern `^\s*-\s*\[ \]\s*.+`,
which demands exactly one blank between the brackets. -/
theorem claim_C5_counterexample :
    countUncheckedTasks "- [] x" = 1 ∧
    (splitNl "- [] x".data).countP specLineUnchecked = 0 ∧
    countUncheckedTasks "- [] x" ≠
      (splitNl "- [] x".data).countP specLineUnchecked := by
  refine ⟨by decide, by decide, by decide⟩

/-- C5, amended: on texts whose every line is either whitespace-only
(without stray line terminators) or ends in a character other than
whitespace, `-`, `[`, `]`, the counters count exactly the lines matching the
code's own per-line patterns `^\s*-\s*\[\s*\]\s*.+$` (unchecked) and
`^\s*-\s*\[x\]\s*.+$` case-insensitive (checked). -/
theorem claim_C5_amended (T : String)
    (h : ∀ l ∈ splitNl T.data, wsOnlyLine l = true ∨ goodLine l = true) :
    countUncheckedTasks T = (splitNl T.data).countP lineMatchesUnchecked ∧
    countCheckedTasks T = (splitNl T.data).countP lineMatchesChecked :=
  ⟨countUncheckedTasks_eq_countP T h, countCheckedTasks_eq_countP T h⟩

/-- C5, witness: on `"# title\n- [ ] a\n- [X] b"` the counters equal the
per-line counts. -/
theorem claim_C5_witness :
    countUncheckedTasks "# title\n- [ ] a\n- [X] b" =
      (splitNl "# title\n- [ ] a\n- [X] b".data).countP lineMatchesUnchecked ∧
    countCheckedTasks "# title\n- [ ] a\n- [X] b" =
      (splitNl "# title\n- [ ] a\n- [X] b".data).countP lineMatchesChecked :=
  claim_C5_amended "# title\n- [ ] a\n- [X] b" (by decide)

/-- C6: both counters return 0 on the empty string and on an absent
(`undefined`) input. -/
theorem claim_C6 :
    countUncheckedTasks "" = 0 ∧ countCheckedTasks "" = 0 ∧
    countUncheckedTasksOpt none = 0 ∧ countCheckedTasksOpt none = 0 := by
  refine ⟨by decide, by decide, rfl, rfl⟩

/-- C7: the Start control's enablement `canStartAutoRun` holds exactly when
auto-run is not running, the session is not busy, and the unchecked-task
count of the current content is positive. -/
theorem claim_C7 (autoRunState : Option AutoRunState)
    (isSessionBusy : Option Bool) (localContent : String) :
    canStartAutoRun autoRunState isSessionBusy localContent = true ↔
      (isAutoRunning autoRunState = false ∧ isSessionBusy.getD false = false ∧
       0 < countUncheckedTasks localContent) := by
  unfold canStartAutoRun
  simp [Bool.and_eq_true, Bool.not_eq_true', decide_eq_true_eq, and_assoc]

/-- C8: Cancel resets the draft to the committed content, returns to view
mode and fires no callback; Save fires the content-changed callback with
exactly the draft and returns to view mode. -/
theorem claim_C8 (committed draft : String) (m : Mode) :
    handleCancel committed ⟨m, draft⟩ =
      (⟨Mode.view, committed⟩, (none : Option String)) ∧
    handleSave ⟨m, draft⟩ = (⟨Mode.view, draft⟩, some draft) :=
  ⟨rfl, rfl⟩

/-- C9: for every content and every index, the toggle handler preserves the
number of lines, and every line other than the one at the given index is
unchanged. -/
theorem claim_C9 (content : String) (li : Int) :
    (splitNl (handleToggleTask content li).data).length =
      (splitNl content.data).length ∧
    ∀ j : Nat, (j : Int) ≠ li →
      (splitNl (handleToggleTask content li).data).getD j [] =
        (splitNl content.data).getD j [] := by
  by_cases hneg : li < 0
  · rw [handleToggleTask_out_of_range content li (Or.inl hneg)]
    exact ⟨rfl, fun j _ => rfl⟩
  · by_cases hrange : li.toNat < (splitNl content.data).length
    · have hli : li = ((li.toNat : Nat) : Int) := by omega
      rw [hli, handleToggleTask_lines content li.toNat hrange]
      constructor
      · exact List.length_set _ _ _
      · intro j hj
        exact getD_set_ne _ _ _ _ _ (by omega)
    · rw [handleToggleTask_out_of_range content li (Or.inr (by omega))]
      exact ⟨rfl, fun j _ => rfl⟩

/-- C9, witness: toggling line 0 of `"- [ ] a\nplain"` keeps the line count
and leaves line 1 unchanged. -/
theorem claim_C9_witness :
    (splitNl (handleToggleTask "- [ ] a\nplain" 0).data).length =
      (splitNl "- [ ] a\nplain".data).length ∧
    (splitNl (handleToggleTask "- [ ] a\nplain" 0).data).getD 1 [] =
      (splitNl "- [ ] a\nplain".data).getD 1 [] :=
  ⟨(claim_C9 "- [ ] a\nplain" 0).1,
   (claim_C9 "- [ ] a\nplain" 0).2 1 (by decide)⟩

/-- C10: an out-of-range index (negative, or at least the number of lines)
makes the toggle handler a no-op: the resulting content equals the input. -/
theorem claim_C10 (content : String) (li : Int)
    (h : li < 0 ∨ ((splitNl content.data).length : Int) ≤ li) :
    handleToggleTask content li = content := by
  refine handleToggleTask_out_of_range content li ?_
  rcases h with h1 | h1
  · exact Or.inl h1
  · right
    omega

/-- C10, witness: toggling with index `-1` or `5` on the two-line content
`"a\nb"` returns the content unchanged. -/
theorem claim_C10_witness :
    handleToggleTask "a\nb" (-1) = "a\nb" ∧
    handleToggleTask "a\nb" 5 = "a\nb" :=
  ⟨claim_C10 "a\nb" (-1) (Or.inl (by decide)),
   claim_C10 "a\nb" 5 (Or.inr (by decide))⟩

end Maestro
